import Mathlib

/-!
Verification of the `httpfromtcp` HTTP/1.1 incremental request parser.

The Go sources are shallowly embedded: Go byte slices and strings become
`List Nat` of byte values, the mutable `*Request` state machine becomes a
pure state-passing function, and `io.Reader` sources become either the
test-suite's `chunkReader` (fixed chunk size over a byte string) or a
scripted list of read results.  Every definition mirrors the corresponding
Go function from `internal/headers/headers.go` and `internal/request/request.go`.
-/

namespace HttpFromTcp

/-- Byte strings: Go `[]byte` / `string`, one `Nat` per byte. -/
abbrev Bytes := List Nat

/-- ASCII lowercasing of one byte: the ASCII fragment of Go `strings.ToLower`
(all bytes this parser validates or compares are ASCII). -/
def asciiLower (b : Nat) : Nat := if 65 ≤ b ∧ b ≤ 90 then b + 32 else b

/-- Go `strings.ToLower` on an ASCII byte string. -/
def lowerBytes (s : Bytes) : Bytes := s.map asciiLower

/-- Go `unicode.IsSpace` restricted to ASCII bytes, as used by `bytes.TrimSpace`:
space, tab, newline, vertical tab, form feed, carriage return. -/
def isGoSpace (b : Nat) : Bool := b == 32 || b == 9 || b == 10 || b == 11 || b == 12 || b == 13

/-- Go `bytes.TrimSpace` on ASCII bytes. -/
def trimSpace (s : Bytes) : Bytes := ((s.dropWhile isGoSpace).reverse.dropWhile isGoSpace).reverse

/-- Index of the first occurrence of the 2-byte CRLF terminator, Go
`bytes.Index(data, []byte("\r\n"))` (with `none` for `-1`). -/
def findCRLF : Bytes → Option Nat
  | [] => none
  | [_] => none
  | a :: b :: rest =>
    if a = 13 ∧ b = 10 then some 0
    else (findCRLF (b :: rest)).map (· + 1)

/-- Go `bytes.SplitN(l, sep, 2)` for a 1-byte separator: `none` when the
separator is absent, otherwise the parts before and after its first occurrence. -/
def splitOnFirst (c : Nat) : Bytes → Option (Bytes × Bytes)
  | [] => none
  | b :: rest =>
    if b = c then some ([], rest)
    else (splitOnFirst c rest).map (fun p => (b :: p.1, p.2))

/-- Go `strings.Split` / `bytes.Split` for a 1-byte separator. -/
def splitOn (c : Nat) : Bytes → List Bytes
  | [] => [[]]
  | b :: rest =>
    if b = c then [] :: splitOn c rest
    else
      match splitOn c rest with
      | [] => [[b]]
      | h :: t => (b :: h) :: t

/-- The error values of both Go packages (`headers` and `request`), one
constructor per distinct Go error.  `invalidContentLength true` is the
"negative value" variant of `ErrInvalidContentLength`;
`invalidFieldNameChar c` carries the offending byte like the Go message. -/
inductive ReqError where
  | malformedReqLine
  | invalidMethod
  | unsupportedHttpVer
  | invalidHttpFormat
  | parserDone
  | unknownState
  | invalidContentLength (negative : Bool)
  | contentLengthTooLarge
  | bodyExceedsContentLength
  | multipleContentLength
  | malformedHeader
  | invalidSpacing
  | emptyFieldName
  | invalidFieldNameChar (c : Nat)
  deriving DecidableEq, Repr

/-- Lookup in the association list modelling the Go `map[string]string`. -/
def lookupPairs : List (Bytes × Bytes) → Bytes → Option Bytes
  | [], _ => none
  | (k, v) :: rest, key => if k = key then some v else lookupPairs rest key

/-- Update in the association list: joins with `", "` when the key is present
(Go `Headers.Set`), appends a fresh binding otherwise. -/
def setPairs : List (Bytes × Bytes) → Bytes → Bytes → List (Bytes × Bytes)
  | [], key, value => [(key, value)]
  | (k, v) :: rest, key, value =>
    if k = key then (k, v ++ 44 :: 32 :: value) :: rest
    else (k, v) :: setPairs rest key value

/-- Go `headers.Headers`: a map from lowercase-normalised names to values. -/
structure Headers where
  pairs : List (Bytes × Bytes)
  deriving DecidableEq, Repr

/-- Go `headers.NewHeaders()`. -/
def NewHeaders : Headers := ⟨[]⟩

/-- Go `Headers.Get`: case-insensitive lookup, empty string when absent. -/
def Headers.get (h : Headers) (key : Bytes) : Bytes :=
  (lookupPairs h.pairs (lowerBytes key)).getD []

/-- Go `Headers.Set`: lowercase the key, join with `", "` on repeat. -/
def Headers.set (h : Headers) (key value : Bytes) : Headers :=
  ⟨setPairs h.pairs (lowerBytes key) value⟩

/-- Go `headers.isValidTokenChar`: ALPHA, DIGIT or one of
`! # $ % & ' * + - . ^ _ ` | ~`. -/
def isValidTokenChar (b : Nat) : Bool :=
  (97 ≤ b && b ≤ 122) || (65 ≤ b && b ≤ 90) || (48 ≤ b && b ≤ 57) ||
  b == 33 || b == 35 || b == 36 || b == 37 || b == 38 || b == 39 || b == 42 ||
  b == 43 || b == 45 || b == 46 || b == 94 || b == 95 || b == 96 || b == 124 || b == 126

/-- Go `headers.validateFieldName`: non-empty, every byte a token char;
reports the first offending byte. -/
def validateFieldName (name : Bytes) : Option ReqError :=
  if name = [] then some .emptyFieldName
  else
    match name.find? (fun b => !isValidTokenChar b) with
    | some c => some (.invalidFieldNameChar c)
    | none => none

/-- Go `headers.parseHeader`: split one field-line on the first colon, reject
a literal space just before the colon, trim and lowercase the name, trim the
value, validate the name. -/
def parseHeader (fieldLine : Bytes) : Except ReqError (Bytes × Bytes) :=
  match splitOnFirst 58 fieldLine with
  | none => .error .malformedHeader
  | some (pre, post) =>
    if pre.getLast? = some 32 then .error .invalidSpacing
    else
      let name := lowerBytes (trimSpace pre)
      let value := trimSpace post
      match validateFieldName name with
      | some e => .error e
      | none => .ok (name, value)

/-- Go `Headers.Parse`: `(headers', bytesConsumed, done, error)`.  The
returned `Headers` is the (possibly) updated map; on every non-success path
the map is unchanged. -/
def Headers.parse (h : Headers) (data : Bytes) : Headers × Nat × Bool × Option ReqError :=
  match findCRLF data with
  | none => (h, 0, false, none)
  | some idx =>
    if idx = 0 then (h, 2, true, none)
    else
      match parseHeader (data.take idx) with
      | .error e => (h, 0, false, some e)
      | .ok (name, value) => (h.set name value, idx + 2, false, none)

/-- Go `request.ParserState`. -/
inductive ParserState where
  | initialized
  | headers
  | body
  | done
  deriving DecidableEq, Repr

/-- Go `request.RequestLine` (field order as in the source). -/
structure RequestLine where
  httpVersion : Bytes
  requestTarget : Bytes
  method : Bytes
  deriving DecidableEq, Repr

/-- Go `request.Request`: `body = none` models a nil `[]byte` slice,
distinct from a present-but-empty `some []`. -/
structure Request where
  requestLine : RequestLine
  headers : Headers
  body : Option Bytes
  state : ParserState
  deriving DecidableEq, Repr

/-- Go `request.NewRequest()`: zero-valued request line, empty headers,
nil body, `StateInitialized`. -/
def NewRequest : Request := ⟨⟨[], [], []⟩, NewHeaders, none, .initialized⟩

/-- Go `request.validateMethod`: non-empty, uppercase ALPHA or `-` only. -/
def validateMethod (m : Bytes) : Option ReqError :=
  if m = [] then some .invalidMethod
  else if m.all (fun c => (65 ≤ c && c ≤ 90) || c == 45) then none
  else some .invalidMethod

/-- Bytes of the literal `"HTTP"`. -/
def httpLit : Bytes := [72, 84, 84, 80]

/-- Bytes of the literal `"1.1"`. -/
def ver11Lit : Bytes := [49, 46, 49]

/-- Go `request.validateHttpVersion`: split on `/` into exactly two parts,
part 0 must be `HTTP`, part 1 must be `1.1`. -/
def validateHttpVersion (version : Bytes) : Option ReqError :=
  match splitOn 47 version with
  | [p0, p1] =>
    if p0 ≠ httpLit then some .invalidHttpFormat
    else if p1 ≠ ver11Lit then some .unsupportedHttpVer
    else none
  | _ => some .invalidHttpFormat

/-- Go `request.parseRequestLine`: `(requestLine?, bytesConsumed, error)`;
`(none, 0, none)` means "need more data". -/
def parseRequestLine (data : Bytes) : Option RequestLine × Nat × Option ReqError :=
  match findCRLF data with
  | none => (none, 0, none)
  | some idx =>
    match splitOn 32 (data.take idx) with
    | [method, target, version] =>
      match validateMethod method with
      | some e => (none, 0, some e)
      | none =>
        match validateHttpVersion version with
        | some e => (none, 0, some e)
        | none => (some ⟨(splitOn 47 version).getD 1 [], target, method⟩, idx + 2, none)
    | _ => (none, 0, some .malformedReqLine)

/-- Go slice append on a possibly-nil slice: `append(nil, ...)` of nothing
stays nil, otherwise the result is non-nil. -/
def goAppend (b : Option Bytes) (d : Bytes) : Option Bytes :=
  match b with
  | none => if d.isEmpty then none else some d
  | some bs => some (bs ++ d)

/-- ASCII decimal digit. -/
def isDigit (b : Nat) : Bool := 48 ≤ b && b ≤ 57

/-- Value of a non-empty all-digit byte string. -/
def digitsVal (s : Bytes) : Option Nat :=
  if s = [] then none
  else if s.all isDigit then some (s.foldl (fun acc b => acc * 10 + (b - 48)) 0)
  else none

/-- `math.MaxInt64`. -/
def int64Max : Int := 9223372036854775807

/-- Go `strconv.ParseInt(s, 10, 64)`: optional sign, non-empty digits,
`none` on any syntax or int64-range error. -/
def parseInt64 (s : Bytes) : Option Int :=
  match s with
  | 43 :: rest => (digitsVal rest).bind (fun v => if (v : Int) ≤ int64Max then some (v : Int) else none)
  | 45 :: rest => (digitsVal rest).bind (fun v => if (v : Int) ≤ int64Max + 1 then some (-(v : Int)) else none)
  | _ => (digitsVal s).bind (fun v => if (v : Int) ≤ int64Max then some (v : Int) else none)

/-- Bytes of `"content-length"`. -/
def contentLengthKey : Bytes := [99, 111, 110, 116, 101, 110, 116, 45, 108, 101, 110, 103, 116, 104]

/-- Go `request.MaxContentLength` = 10 * 1024 * 1024. -/
def maxContentLength : Int := 10485760

/-- Go `(*Request).getAndValidateContentLength`: absent value is length 0;
a comma means multiple folded Content-Length headers; then integer parse,
negativity and maximum checks in order. -/
def getAndValidateContentLength (r : Request) : Except ReqError Int :=
  let s := r.headers.get contentLengthKey
  if s = [] then .ok 0
  else if s.contains 44 then .error .multipleContentLength
  else
    match parseInt64 s with
    | none => .error (.invalidContentLength false)
    | some n =>
      if n < 0 then .error (.invalidContentLength true)
      else if maxContentLength < n then .error .contentLengthTooLarge
      else .ok n

/-- Go `(*Request).parseSingle`: one step of the state machine on the given
buffer slice; returns the updated request, bytes consumed and error. -/
def Request.parseSingle (r : Request) (data : Bytes) : Request × Nat × Option ReqError :=
  match r.state with
  | .initialized =>
    match parseRequestLine data with
    | (_, _, some e) => (r, 0, some e)
    | (none, _, none) => (r, 0, none)
    | (some rl, n, none) => ({ r with requestLine := rl, state := .headers }, n, none)
  | .headers =>
    match r.headers.parse data with
    | (_, _, _, some e) => (r, 0, some e)
    | (h', n, d, none) => ({ r with headers := h', state := if d then .body else .headers }, n, none)
  | .body =>
    match getAndValidateContentLength r with
    | .error e => (r, 0, some e)
    | .ok contentLength =>
      if contentLength = 0 then ({ r with state := .done }, 0, none)
      else
        let body' := goAppend r.body data
        if (((body'.getD []).length : Int) > contentLength) then
          ({ r with body := body' }, 0, some .bodyExceedsContentLength)
        else if (((body'.getD []).length : Int) = contentLength) then
          ({ r with body := body', state := .done }, data.length, none)
        else
          ({ r with body := body' }, data.length, none)
  | .done => (r, 0, some .parserDone)

/-- Fuelled loop of Go `(*Request).parse`: repeatedly run `parseSingle` on the
unconsumed tail, accumulating consumed counts, until `Done`, an error, or a
zero-consumption step. `data.length` bounds the number of productive steps, so
any fuel above it is enough. -/
def parseAux : Nat → Request → Bytes → Request × Nat × Option ReqError
  | 0, r, _ => (r, 0, none)
  | fuel + 1, r, data =>
    if r.state = .done then (r, 0, none)
    else
      match r.parseSingle data with
      | (r', _, some e) => (r', 0, some e)
      | (r', n, none) =>
        if n = 0 then (r', 0, none)
        else
          let rest := parseAux fuel r' (data.drop n)
          (rest.1, n + rest.2.1, rest.2.2)

/-- Go `(*Request).parse`. -/
def Request.parse (r : Request) (data : Bytes) : Request × Nat × Option ReqError :=
  parseAux (data.length + 1) r data

/-- Go `request.bufferSize` (initial buffer capacity). -/
def bufferSize : Nat := 1024

/-- Fuelled loop of Go `RequestFromReader` driven by the test-suite's
`chunkReader` over `data` with `k` bytes per read: grow the buffer when full,
read `min(k, free space, bytes left)` bytes, stop on EOF, parse, compact.
`pos` is the reader position, `buf` the unconsumed fill of the buffer,
`cap` its capacity. -/
def rfrAux (data : Bytes) (k : Nat) :
    Nat → Request → Bytes → Nat → Nat → Except ReqError Request
  | 0, req, _, _, _ => .ok req
  | fuel + 1, req, buf, cap, pos =>
    if req.state = .done then .ok req
    else
      let cap' := if cap ≤ buf.length then cap * 2 else cap
      if data.length ≤ pos then .ok req
      else
        let n := min (min k (cap' - buf.length)) (data.length - pos)
        let buf' := buf ++ (data.drop pos).take n
        match req.parse buf' with
        | (_, _, some e) => .error e
        | (r', m, none) => rfrAux data k fuel r' (buf'.drop m) cap' (pos + n)

/-- Go `request.RequestFromReader` fed by the test-suite's `chunkReader`
(`data`, `numBytesPerRead = k`). -/
def RequestFromReader (data : Bytes) (k : Nat) : Except ReqError Request :=
  rfrAux data k (data.length + 1) NewRequest [] bufferSize 0

/-- Go `request.RequestFromReader` over a scripted byte source: each list
entry is one `Read` result, a chunk of bytes together with the end-of-input
flag returned by that same call (`io.EOF`).  An exhausted script keeps
returning EOF.  As in the Go loop, an EOF result breaks out *before* the
returned bytes are appended to the buffer. -/
def rfrScriptAux : List (Bytes × Bool) → Request → Bytes → Nat → Except ReqError Request
  | reads, req, buf, cap =>
    if req.state = .done then .ok req
    else
      let cap' := if cap ≤ buf.length then cap * 2 else cap
      match reads with
      | [] => .ok req
      | (chunk, isEof) :: rest =>
        if isEof then .ok req
        else
          let buf' := buf ++ chunk.take (cap' - buf.length)
          match req.parse buf' with
          | (_, _, some e) => .error e
          | (r', m, none) => rfrScriptAux rest r' (buf'.drop m) cap'

/-- Go `request.RequestFromReader` over a scripted byte source. -/
def RequestFromReaderScripted (reads : List (Bytes × Bool)) : Except ReqError Request :=
  rfrScriptAux reads NewRequest [] bufferSize

/-! ### Concrete inputs used to witness the theorems (ASCII byte values) -/

/-- `"GET / HTTP/1.1\r\nHost: a\r\n\r\n"`. -/
def c1data : Bytes :=
  [71, 69, 84, 32, 47, 32, 72, 84, 84, 80, 47, 49, 46, 49, 13, 10,
   72, 111, 115, 116, 58, 32, 97, 13, 10, 13, 10]

/-- The request parsed from `c1data`. -/
def c1R : Request :=
  ⟨⟨[49, 46, 49], [47], [71, 69, 84]⟩, ⟨[([104, 111, 115, 116], [97])]⟩, none, .done⟩

/-- `"POST /submit HTTP/1.1\r\nContent-Length: 0\r\n\r\n"`. -/
def cl0Data : Bytes :=
  [80, 79, 83, 84, 32, 47, 115, 117, 98, 109, 105, 116, 32, 72, 84, 84, 80, 47, 49, 46, 49,
   13, 10, 67, 111, 110, 116, 101, 110, 116, 45, 76, 101, 110, 103, 116, 104, 58, 32, 48,
   13, 10, 13, 10]

/-- `"GET /page HTTP/1.1\r\n\r\n"` (no Content-Length header at all). -/
def noClData : Bytes :=
  [71, 69, 84, 32, 47, 112, 97, 103, 101, 32, 72, 84, 84, 80, 47, 49, 46, 49, 13, 10, 13, 10]

/-- `"POST /s HTTP/1.1\r\nContent-Length: 20\r\n\r\n"`. -/
def c3head : Bytes :=
  [80, 79, 83, 84, 32, 47, 115, 32, 72, 84, 84, 80, 47, 49, 46, 49, 13, 10,
   67, 111, 110, 116, 101, 110, 116, 45, 76, 101, 110, 103, 116, 104, 58, 32, 50, 48,
   13, 10, 13, 10]

/-- `"partial content"` (15 bytes, short of the declared 20). -/
def c3body : Bytes :=
  [112, 97, 114, 116, 105, 97, 108, 32, 99, 111, 110, 116, 101, 110, 116]

/-- The request state after parsing `c3head`: in the `Body` state with
`Content-Length: 20` recorded and no body bytes yet. -/
def c3rH : Request :=
  ⟨⟨[49, 46, 49], [47, 115], [80, 79, 83, 84]⟩,
   ⟨[([99, 111, 110, 116, 101, 110, 116, 45, 108, 101, 110, 103, 116, 104], [50, 48])]⟩,
   none, .body⟩

/-- A request sitting in the `Body` state whose headers carry the given
Content-Length value (used to exercise the validation paths). -/
def bodyStateReq (v : Bytes) : Request :=
  ⟨⟨[], [], []⟩, ⟨[(contentLengthKey, v)]⟩, none, .body⟩

/-- A request in the terminal `Done` state. -/
def doneReq : Request := ⟨⟨[], [], []⟩, NewHeaders, none, .done⟩

/-- A request in the `Body` state with no Content-Length header. -/
def noClBodyReq : Request := ⟨⟨[], [], []⟩, NewHeaders, none, .body⟩

/-- `"Host : x\r\n"`: the name before the colon ends in a space. -/
def c5cexData : Bytes := [72, 111, 115, 116, 32, 58, 32, 120, 13, 10]

/-- `"Host\t: x\r\n"`: a tab (whitespace, but not a space) precedes the colon. -/
def c8cexData : Bytes := [72, 111, 115, 116, 9, 58, 32, 120, 13, 10]


/-! ### Lemmas about `findCRLF` -/

theorem findCRLF_append (p s : Bytes) (i : Nat) (h : findCRLF p = some i) :
    findCRLF (p ++ s) = some i := by
  induction p using findCRLF.induct generalizing i with
  | case1 => simp [findCRLF] at h
  | case2 x => simp [findCRLF] at h
  | case3 a b rest hab =>
    rw [findCRLF] at h; simp [hab] at h; subst h
    simp only [List.cons_append]; rw [findCRLF]; simp [hab]
  | case4 a b rest hab ih =>
    rw [findCRLF] at h; simp [hab] at h
    obtain ⟨j, hj, rfl⟩ := h
    simp only [List.cons_append]; rw [findCRLF]; simp [hab]
    exact ih j hj

theorem findCRLF_bound (p : Bytes) (i : Nat) (h : findCRLF p = some i) :
    i + 2 ≤ p.length := by
  induction p using findCRLF.induct generalizing i with
  | case1 => simp [findCRLF] at h
  | case2 x => simp [findCRLF] at h
  | case3 a b rest hab =>
    rw [findCRLF] at h; simp [hab] at h; subst h; simp
  | case4 a b rest hab ih =>
    rw [findCRLF] at h; simp [hab] at h
    obtain ⟨j, hj, rfl⟩ := h
    have := ih j hj
    simp at this ⊢
    omega

/-- Appending a CRLF terminator to a CRLF-free byte string puts the first
CRLF exactly at the old length (no occurrence can straddle the boundary
since the byte before the terminator would have to pair with `13`, never
forming `13 10`). -/
theorem findCRLF_none_append (l t : Bytes) (h : findCRLF l = none) :
    findCRLF (l ++ 13 :: 10 :: t) = some l.length := by
  induction l using findCRLF.induct with
  | case1 =>
    simp only [List.nil_append, List.length_nil]
    rw [findCRLF]; simp
  | case2 x =>
    simp only [List.cons_append, List.nil_append]
    rw [findCRLF]
    have hx : ¬(x = 13 ∧ (13 : Nat) = 10) := by omega
    simp [hx]
    rw [findCRLF]; simp
  | case3 a b rest hab =>
    rw [findCRLF] at h; simp [hab] at h
  | case4 a b rest hab ih =>
    rw [findCRLF] at h
    simp only [hab, if_false] at h
    have h2 : findCRLF (b :: rest) = none := by
      cases hfc : findCRLF (b :: rest) with
      | none => rfl
      | some j => rw [hfc] at h; simp at h
    have h3 := ih h2
    simp only [List.cons_append] at h3 ⊢
    rw [findCRLF]
    simp only [hab, if_false]
    rw [h3]
    simp

/-! ### `goAppend` (Go slice append) -/

theorem goAppend_nil (b : Option Bytes) : goAppend b [] = b := by
  cases b <;> simp [goAppend]

theorem goAppend_assoc (b : Option Bytes) (d e : Bytes) :
    goAppend (goAppend b d) e = goAppend b (d ++ e) := by
  cases b with
  | some bs => simp [goAppend]
  | none =>
    by_cases hd : d = []
    · subst hd; simp [goAppend]
    · simp [goAppend, hd]

theorem goAppend_len (b : Option Bytes) (d : Bytes) :
    ((goAppend b d).getD []).length = (b.getD []).length + d.length := by
  cases b with
  | some bs => simp [goAppend]
  | none =>
    by_cases hd : d = []
    · subst hd; simp [goAppend]
    · simp [goAppend, hd]

/-! ### Line-local behaviour: a complete line is parsed identically on any
extension of the buffer (the spec's chunk-boundary resilience hinges on this) -/

theorem headersParse_none (h : Headers) (d : Bytes) (hf : findCRLF d = none) :
    Headers.parse h d = (h, 0, false, none) := by
  unfold Headers.parse; rw [hf]

theorem headersParse_append (h : Headers) (d s : Bytes) (idx : Nat)
    (hf : findCRLF d = some idx) :
    Headers.parse h (d ++ s) = Headers.parse h d := by
  unfold Headers.parse
  rw [hf, findCRLF_append d s idx hf]
  have hb := findCRLF_bound d idx hf
  dsimp only
  rw [List.take_append_of_le_length (by omega)]

/-- With a CRLF present, `Headers.Parse` either signals the header-section
terminator, errors, or stores one field and consumes the line plus CRLF. -/
theorem headersParse_found (h : Headers) (d : Bytes) (idx : Nat)
    (hf : findCRLF d = some idx) :
    (idx = 0 ∧ h.parse d = (h, 2, true, none)) ∨
    (∃ e, h.parse d = (h, 0, false, some e)) ∨
    (∃ name value, parseHeader (d.take idx) = .ok (name, value) ∧
      h.parse d = (h.set name value, idx + 2, false, none)) := by
  unfold Headers.parse
  rw [hf]
  dsimp only
  by_cases h0 : idx = 0
  · subst h0; simp
  · simp only [h0, if_false]
    cases hph : parseHeader (d.take idx) with
    | error e => exact .inr (.inl ⟨e, rfl⟩)
    | ok nv =>
      obtain ⟨name, value⟩ := nv
      exact .inr (.inr ⟨name, value, rfl, rfl⟩)

theorem headersParse_le (h : Headers) (d : Bytes) : (h.parse d).2.1 ≤ d.length := by
  cases hf : findCRLF d with
  | none => rw [headersParse_none h d hf]; simp
  | some idx =>
    have hb := findCRLF_bound d idx hf
    rcases headersParse_found h d idx hf with ⟨h0, heq⟩ | ⟨e, heq⟩ | ⟨n, v, hph, heq⟩ <;>
      rw [heq] <;> simp <;> omega

theorem parseRequestLine_none (d : Bytes) (hf : findCRLF d = none) :
    parseRequestLine d = (none, 0, none) := by
  unfold parseRequestLine; rw [hf]

theorem parseRequestLine_append (d s : Bytes) (idx : Nat) (hf : findCRLF d = some idx) :
    parseRequestLine (d ++ s) = parseRequestLine d := by
  unfold parseRequestLine
  rw [hf, findCRLF_append d s idx hf]
  have hb := findCRLF_bound d idx hf
  dsimp only
  rw [List.take_append_of_le_length (by omega)]

/-- With a CRLF present, the request-line parser either errors (consuming 0)
or produces a request-line consuming the line plus CRLF. -/
theorem parseRequestLine_found (d : Bytes) (idx : Nat) (hf : findCRLF d = some idx) :
    (∃ e, parseRequestLine d = (none, 0, some e)) ∨
    (∃ rl, parseRequestLine d = (some rl, idx + 2, none)) := by
  unfold parseRequestLine
  rw [hf]
  dsimp only
  cases h32 : splitOn 32 (d.take idx) with
  | nil => exact .inl ⟨_, rfl⟩
  | cons m rest =>
    cases rest with
    | nil => exact .inl ⟨_, rfl⟩
    | cons t rest2 =>
      cases rest2 with
      | nil => exact .inl ⟨_, rfl⟩
      | cons v rest3 =>
        cases rest3 with
        | cons _ _ => exact .inl ⟨_, rfl⟩
        | nil =>
          dsimp only
          cases hm : validateMethod m with
          | some e => exact .inl ⟨e, rfl⟩
          | none =>
            dsimp only
            cases hv : validateHttpVersion v with
            | some e => exact .inl ⟨e, rfl⟩
            | none => exact .inr ⟨_, rfl⟩

theorem parseRequestLine_le (d : Bytes) : (parseRequestLine d).2.1 ≤ d.length := by
  cases hf : findCRLF d with
  | none => rw [parseRequestLine_none d hf]; simp
  | some idx =>
    have hb := findCRLF_bound d idx hf
    rcases parseRequestLine_found d idx hf with ⟨e, he⟩ | ⟨rl, hrl⟩
    · rw [he]; simp
    · rw [hrl]; simpa using hb

/-! ### `parseSingle` facts per state -/

theorem gav_headers_eq (r r' : Request) (hh : r.headers = r'.headers) :
    getAndValidateContentLength r = getAndValidateContentLength r' := by
  unfold getAndValidateContentLength
  rw [hh]

theorem parseSingle_done (r : Request) (d : Bytes) (hs : r.state = .done) :
    r.parseSingle d = (r, 0, some .parserDone) := by
  unfold Request.parseSingle
  rw [hs]

theorem parseSingle_line_none (r : Request) (d : Bytes)
    (hs : r.state = .initialized ∨ r.state = .headers) (hf : findCRLF d = none) :
    r.parseSingle d = (r, 0, none) := by
  obtain ⟨rl, hh, bo, st⟩ := r
  unfold Request.parseSingle
  rcases hs with hs | hs <;> simp only at hs <;> subst hs <;> dsimp only
  · rw [parseRequestLine_none d hf]
  · rw [headersParse_none _ d hf]; simp

theorem parseSingle_line_ext (r : Request) (d s : Bytes) (idx : Nat)
    (hs : r.state = .initialized ∨ r.state = .headers) (hf : findCRLF d = some idx) :
    r.parseSingle (d ++ s) = r.parseSingle d := by
  unfold Request.parseSingle
  rcases hs with hs | hs <;> rw [hs] <;> dsimp only
  · rw [parseRequestLine_append d s idx hf]
  · rw [headersParse_append r.headers d s idx hf]

theorem parseSingle_init_err (r : Request) (d : Bytes) (e : ReqError)
    (hs : r.state = .initialized) (he : parseRequestLine d = (none, 0, some e)) :
    r.parseSingle d = (r, 0, some e) := by
  unfold Request.parseSingle
  rw [hs]
  dsimp only
  rw [he]

theorem parseSingle_init_ok (r : Request) (d : Bytes) (rl : RequestLine) (n : Nat)
    (hs : r.state = .initialized) (hok : parseRequestLine d = (some rl, n, none)) :
    r.parseSingle d = ({ r with requestLine := rl, state := .headers }, n, none) := by
  unfold Request.parseSingle
  rw [hs]
  dsimp only
  rw [hok]

/-- In a line-reading state, a step that consumes nothing and raises no error
leaves the request untouched and means no CRLF was found. -/
theorem parseSingle_line_zero (r r' : Request) (d : Bytes)
    (hs : r.state = .initialized ∨ r.state = .headers)
    (hp : r.parseSingle d = (r', 0, none)) : r' = r ∧ findCRLF d = none := by
  cases hf : findCRLF d with
  | none =>
    rw [parseSingle_line_none r d hs hf] at hp
    simp at hp
    exact ⟨hp.symm, rfl⟩
  | some idx =>
    exfalso
    rcases hs with hs | hs
    · rcases parseRequestLine_found d idx hf with ⟨e, he⟩ | ⟨rl, hok⟩
      · rw [parseSingle_init_err r d e hs he] at hp
        simpa using hp
      · rw [parseSingle_init_ok r d rl (idx + 2) hs hok] at hp
        simpa using hp
    · have hunf : r.parseSingle d =
          (match r.headers.parse d with
           | (_, _, _, some e) => (r, 0, some e)
           | (h', n, dn, none) =>
             ({ r with headers := h', state := if dn then .body else .headers }, n, none)) := by
        unfold Request.parseSingle
        rw [hs]
      rcases headersParse_found r.headers d idx hf with ⟨h0, heq⟩ | ⟨e, heq⟩ | ⟨nm, v, hph, heq⟩ <;>
        rw [heq] at hunf <;> rw [hunf] at hp <;> simpa using hp

theorem parseSingle_le (r : Request) (d : Bytes) : (r.parseSingle d).2.1 ≤ d.length := by
  cases hst : r.state
  case initialized =>
    cases hf : findCRLF d with
    | none => rw [parseSingle_line_none r d (.inl hst) hf]; simp
    | some idx =>
      have hb := findCRLF_bound d idx hf
      rcases parseRequestLine_found d idx hf with ⟨e, he⟩ | ⟨rl, hok⟩
      · rw [parseSingle_init_err r d e hst he]; simp
      · rw [parseSingle_init_ok r d rl (idx + 2) hst hok]; simpa using hb
  case headers =>
    have hunf : r.parseSingle d =
        (match r.headers.parse d with
         | (_, _, _, some e) => (r, 0, some e)
         | (h', n, dn, none) =>
           ({ r with headers := h', state := if dn then .body else .headers }, n, none)) := by
      unfold Request.parseSingle
      rw [hst]
    have hle := headersParse_le r.headers d
    rcases hhp : r.headers.parse d with ⟨h', n, dn, e⟩
    rw [hhp] at hunf hle
    cases e <;> rw [hunf] <;> simpa using hle
  case body =>
    have hunf0 : r.parseSingle d =
        (match getAndValidateContentLength r with
         | .error e => (r, 0, some e)
         | .ok contentLength =>
           if contentLength = 0 then ({ r with state := .done }, 0, none)
           else
             let body' := goAppend r.body d
             if (((body'.getD []).length : Int) > contentLength) then
               ({ r with body := body' }, 0, some .bodyExceedsContentLength)
             else if (((body'.getD []).length : Int) = contentLength) then
               ({ r with body := body', state := .done }, d.length, none)
             else
               ({ r with body := body' }, d.length, none)) := by
      unfold Request.parseSingle
      rw [hst]
    cases hgav : getAndValidateContentLength r with
    | error e => rw [hgav] at hunf0; rw [hunf0]; simp
    | ok cl =>
      rw [hgav] at hunf0
      dsimp only at hunf0
      rw [hunf0]
      split
      · simp
      · split
        · simp
        · split <;> simp
  case done => rw [parseSingle_done r d hst]; simp

theorem parseSingle_body_unfold (r : Request) (d : Bytes) (hs : r.state = .body) :
    r.parseSingle d =
      (match getAndValidateContentLength r with
       | .error e => (r, 0, some e)
       | .ok contentLength =>
         if contentLength = 0 then ({ r with state := .done }, 0, none)
         else
           let body' := goAppend r.body d
           if (((body'.getD []).length : Int) > contentLength) then
             ({ r with body := body' }, 0, some .bodyExceedsContentLength)
           else if (((body'.getD []).length : Int) = contentLength) then
             ({ r with body := body', state := .done }, d.length, none)
           else
             ({ r with body := body' }, d.length, none)) := by
  unfold Request.parseSingle
  rw [hs]

/-! ### The `parse` loop: fuel irrelevance, one-step unfolding, consumption bound -/

theorem parseAux_le (fuel : Nat) (r : Request) (d : Bytes) :
    (parseAux fuel r d).2.1 ≤ d.length := by
  induction fuel generalizing r d with
  | zero => simp [parseAux]
  | succ f ih =>
    rw [parseAux]
    by_cases hd : r.state = .done
    · simp [hd]
    · simp only [hd, if_false]
      rcases hps : r.parseSingle d with ⟨r', n, e⟩
      have hn := parseSingle_le r d
      rw [hps] at hn
      simp only at hn
      cases e with
      | some e => simp
      | none =>
        dsimp only
        by_cases hn0 : n = 0
        · simp [hn0]
        · simp only [hn0, if_false]
          have h2 := ih r' (d.drop n)
          simp only [List.length_drop] at h2
          omega

theorem parse_le (r : Request) (d : Bytes) : (r.parse d).2.1 ≤ d.length :=
  parseAux_le _ _ _

theorem parseAux_fuel (f₁ f₂ : Nat) (r : Request) (d : Bytes)
    (h₁ : d.length < f₁) (h₂ : d.length < f₂) :
    parseAux f₁ r d = parseAux f₂ r d := by
  induction f₁ generalizing f₂ r d with
  | zero => omega
  | succ f ih =>
    cases f₂ with
    | zero => omega
    | succ g =>
      rw [parseAux, parseAux]
      by_cases hd : r.state = .done
      · simp [hd]
      · simp only [hd, if_false]
        rcases hps : r.parseSingle d with ⟨r', n, e⟩
        have hn := parseSingle_le r d
        rw [hps] at hn
        simp only at hn
        cases e with
        | some e => rfl
        | none =>
          dsimp only
          by_cases hn0 : n = 0
          · simp [hn0]
          · simp only [hn0, if_false]
            have hb1 : (d.drop n).length < f := by simp; omega
            have hb2 : (d.drop n).length < g := by simp; omega
            rw [ih g r' (d.drop n) hb1 hb2]

theorem parse_eq_parseAux (r : Request) (d : Bytes) (f : Nat) (hf : d.length < f) :
    r.parse d = parseAux f r d :=
  parseAux_fuel _ _ _ _ (by omega) hf

/-- One-step unfolding of the Go `parse` loop. -/
theorem parse_unfold (r : Request) (d : Bytes) :
    r.parse d =
      (if r.state = .done then (r, 0, none)
       else
         match r.parseSingle d with
         | (r', _, some e) => (r', 0, some e)
         | (r', n, none) =>
           if n = 0 then (r', 0, none)
           else
             let rest := r'.parse (d.drop n)
             (rest.1, n + rest.2.1, rest.2.2)) := by
  rw [Request.parse, parseAux]
  by_cases hd : r.state = .done
  · simp [hd]
  · simp only [hd, if_false]
    rcases hps : r.parseSingle d with ⟨r', n, e⟩
    have hn := parseSingle_le r d
    rw [hps] at hn
    simp only at hn
    cases e with
    | some e => rfl
    | none =>
      dsimp only
      by_cases hn0 : n = 0
      · simp [hn0]
      · simp only [hn0, if_false]
        have hb1 : (d.drop n).length < d.length := by simp; omega
        rw [show parseAux d.length r' (d.drop n) = r'.parse (d.drop n) from
          (parse_eq_parseAux r' (d.drop n) d.length hb1).symm]

theorem parse_done (r : Request) (d : Bytes) (hs : r.state = .done) :
    r.parse d = (r, 0, none) := by
  rw [parse_unfold]
  simp [hs]

/-- Quiescent body step: with bytes still owed and no data offered, `parse`
leaves the request untouched. -/
theorem parse_body_quiescent (r : Request) (cl : Int) (hs : r.state = .body)
    (hgav : getAndValidateContentLength r = .ok cl) (h0 : ¬cl = 0)
    (hlt : ((r.body.getD []).length : Int) < cl) :
    r.parse [] = (r, 0, none) := by
  have hne : ¬r.state = .done := by rw [hs]; simp
  rw [parse_unfold]
  simp only [hne, if_false]
  rw [parseSingle_body_unfold r [] hs, hgav]
  simp only [goAppend_nil, List.length_nil]
  rw [if_neg h0, if_neg (by omega : ¬(((r.body.getD []).length : Int) > cl)),
    if_neg (by omega : ¬(((r.body.getD []).length : Int) = cl))]
  simp

/-- Full characterisation of the `parse` loop in the `Body` state: the loop
reduces to a single effective body step (any further iteration is quiescent). -/
theorem parse_body_char (r : Request) (d : Bytes) (hs : r.state = .body) :
    r.parse d =
      (match getAndValidateContentLength r with
       | .error e => (r, 0, some e)
       | .ok cl =>
         if cl = 0 then ({ r with state := .done }, 0, none)
         else
           let body' := goAppend r.body d
           if (((body'.getD []).length : Int) > cl) then
             ({ r with body := body' }, 0, some .bodyExceedsContentLength)
           else if (((body'.getD []).length : Int) = cl) then
             ({ r with body := body', state := .done }, d.length, none)
           else
             ({ r with body := body' }, d.length, none)) := by
  have hne : ¬r.state = .done := by rw [hs]; simp
  rw [parse_unfold]
  simp only [hne, if_false]
  rw [parseSingle_body_unfold r d hs]
  cases hgav : getAndValidateContentLength r with
  | error e => dsimp only
  | ok cl =>
    dsimp only
    by_cases h0 : cl = 0
    · simp [h0]
    · simp only [h0, if_false]
      by_cases hgt : (((goAppend r.body d).getD []).length : Int) > cl
      · rw [if_pos hgt]
      · rw [if_neg hgt]
        by_cases heq : (((goAppend r.body d).getD []).length : Int) = cl
        · rw [if_pos heq]
          by_cases hd0 : d.length = 0
          · simp [hd0]
          · simp only [hd0, if_false]
            rw [List.drop_length, parse_done _ [] (by simp)]
            simp
        · rw [if_neg heq]
          by_cases hd0 : d.length = 0
          · simp [hd0]
          · simp only [hd0, if_false]
            rw [List.drop_length]
            rw [parse_body_quiescent { r with body := goAppend r.body d } cl (by simp [hs])
              (by rw [gav_headers_eq { r with body := goAppend r.body d } r rfl]; exact hgav)
              h0 (by simp only []; omega)]
            simp

/-! ### Composition of incremental parsing: running `parse` on a prefix and
resuming on the leftover plus more bytes is the same as parsing the whole
buffer.  These lemmas justify the read-loop's compaction strategy. -/


theorem parse_compose_ok_aux : ∀ (bound : Nat) (P : Bytes), P.length ≤ bound →
    ∀ (r : Request) (s : Bytes) (r₁ : Request) (n₁ : Nat) (r₂ : Request) (t : Nat),
    r.parse P = (r₁, n₁, none) → ¬r₁.state = .done →
    r₁.parse (P.drop n₁ ++ s) = (r₂, t, none) →
    r.parse (P ++ s) = (r₂, n₁ + t, none) := by
  intro bound
  induction bound using Nat.strong_induction_on with
  | _ bound ih =>
  intro P hlen r s r₁ n₁ r₂ t hp hnd hc
  by_cases hline : r.state = .initialized ∨ r.state = .headers
  · -- line-reading states: one step is local to the first CRLF
    have hnd0 : ¬r.state = .done := by rcases hline with h | h <;> simp [h]
    rw [parse_unfold] at hp
    simp only [hnd0, if_false] at hp
    rcases hps : r.parseSingle P with ⟨ra, na, ea⟩
    rw [hps] at hp
    cases ea with
    | some e => simp at hp
    | none =>
      dsimp only at hp
      by_cases hn0 : na = 0
      · rw [if_pos hn0] at hp
        simp only [Prod.mk.injEq] at hp
        obtain ⟨h1, h2, -⟩ := hp
        rw [hn0] at hps
        obtain ⟨hzr, -⟩ := parseSingle_line_zero r ra P hline hps
        subst h1
        subst hzr
        rw [← h2] at hc ⊢
        simpa using hc
      · rw [if_neg hn0] at hp
        have hfound : ∃ idx, findCRLF P = some idx := by
          cases hfc : findCRLF P with
          | some idx => exact ⟨idx, rfl⟩
          | none =>
            exfalso
            rw [parseSingle_line_none r P hline hfc] at hps
            simp only [Prod.mk.injEq] at hps
            exact hn0 hps.2.1.symm
        obtain ⟨idx, hf⟩ := hfound
        have hna_le : na ≤ P.length := by
          have h := parseSingle_le r P
          rw [hps] at h
          simpa using h
        rcases hq : Request.parse ra (P.drop na) with ⟨rb, nb, eb⟩
        rw [hq] at hp
        dsimp only at hp
        simp only [Prod.mk.injEq] at hp
        obtain ⟨h1, h2, h3⟩ := hp
        subst h1
        cases eb with
        | some e => simp at h3
        | none =>
          subst h2
          have hdd : P.drop (na + nb) = (P.drop na).drop nb := by
            rw [List.drop_drop]
          rw [hdd] at hc
          have hlen2 : (P.drop na).length < bound := by
            simp only [List.length_drop]
            omega
          have hcomp := ih (P.drop na).length hlen2 (P.drop na) le_rfl ra s rb nb r₂ t hq hnd hc
          rw [parse_unfold]
          simp only [hnd0, if_false]
          rw [parseSingle_line_ext r P s idx hline hf, hps]
          dsimp only
          rw [if_neg hn0]
          rw [List.drop_append_of_le_length hna_le]
          have harith : na + (nb + t) = na + nb + t := by omega
          rw [hcomp, harith]
  · -- body or done
    cases hst : r.state with
    | initialized => exact absurd (.inl hst) hline
    | headers => exact absurd (.inr hst) hline
    | done =>
      rw [parse_done r P hst] at hp
      simp only [Prod.mk.injEq] at hp
      exact absurd (hp.1 ▸ hst) hnd
    | body =>
      rw [parse_body_char r P hst] at hp
      cases hgav : getAndValidateContentLength r with
      | error e => rw [hgav] at hp; simp at hp
      | ok cl =>
        rw [hgav] at hp
        dsimp only at hp
        by_cases h0 : cl = 0
        · rw [if_pos h0] at hp
          simp only [Prod.mk.injEq] at hp
          exact absurd (hp.1 ▸ rfl) hnd
        · rw [if_neg h0] at hp
          by_cases hgt : ((((goAppend r.body P).getD []).length : Int) > cl)
          · rw [if_pos hgt] at hp
            simp at hp
          · rw [if_neg hgt] at hp
            by_cases heq2 : ((((goAppend r.body P).getD []).length : Int) = cl)
            · rw [if_pos heq2] at hp
              simp only [Prod.mk.injEq] at hp
              exact absurd (hp.1 ▸ rfl) hnd
            · rw [if_neg heq2] at hp
              simp only [Prod.mk.injEq] at hp
              obtain ⟨h1, h2, -⟩ := hp
              subst h1
              subst h2
              rw [List.drop_length, List.nil_append] at hc
              have hst1 : ({ r with body := goAppend r.body P } : Request).state = .body := by
                simpa using hst
              rw [parse_body_char _ s hst1] at hc
              have hgav1 :
                  getAndValidateContentLength { r with body := goAppend r.body P } = .ok cl := by
                rw [gav_headers_eq { r with body := goAppend r.body P } r rfl]
                exact hgav
              rw [hgav1] at hc
              dsimp only at hc
              rw [if_neg h0] at hc
              simp only [goAppend_assoc] at hc
              rw [parse_body_char r (P ++ s) hst, hgav]
              dsimp only
              rw [if_neg h0]
              by_cases hgt2 : ((((goAppend r.body (P ++ s)).getD []).length : Int) > cl)
              · rw [if_pos hgt2] at hc
                simp at hc
              · rw [if_neg hgt2] at hc ⊢
                by_cases heq3 : ((((goAppend r.body (P ++ s)).getD []).length : Int) = cl)
                · rw [if_pos heq3] at hc ⊢
                  simp only [Prod.mk.injEq] at hc
                  obtain ⟨h1, h2, -⟩ := hc
                  subst h1
                  subst h2
                  simp only [Prod.mk.injEq, List.length_append]
                · rw [if_neg heq3] at hc ⊢
                  simp only [Prod.mk.injEq] at hc
                  obtain ⟨h1, h2, -⟩ := hc
                  subst h1
                  subst h2
                  simp only [Prod.mk.injEq, List.length_append]


theorem parse_compose_ok (P s : Bytes) (r r₁ r₂ : Request) (n₁ t : Nat)
    (hp : r.parse P = (r₁, n₁, none)) (hnd : ¬r₁.state = .done)
    (hc : r₁.parse (P.drop n₁ ++ s) = (r₂, t, none)) :
    r.parse (P ++ s) = (r₂, n₁ + t, none) :=
  parse_compose_ok_aux P.length P le_rfl r s r₁ n₁ r₂ t hp hnd hc

/-- Error counterpart of composition: if resuming on the leftover plus more
bytes fails, parsing the whole buffer fails with the same error. -/
theorem parse_compose_err_aux : ∀ (bound : Nat) (P : Bytes), P.length ≤ bound →
    ∀ (r : Request) (s : Bytes) (r₁ : Request) (n₁ : Nat) (r₂ : Request) (t : Nat) (e : ReqError),
    r.parse P = (r₁, n₁, none) → ¬r₁.state = .done →
    r₁.parse (P.drop n₁ ++ s) = (r₂, t, some e) →
    ∃ r₃ n₃, r.parse (P ++ s) = (r₃, n₃, some e) := by
  intro bound
  induction bound using Nat.strong_induction_on with
  | _ bound ih =>
  intro P hlen r s r₁ n₁ r₂ t e hp hnd hc
  by_cases hline : r.state = .initialized ∨ r.state = .headers
  · have hnd0 : ¬r.state = .done := by rcases hline with h | h <;> simp [h]
    rw [parse_unfold] at hp
    simp only [hnd0, if_false] at hp
    rcases hps : r.parseSingle P with ⟨ra, na, ea⟩
    rw [hps] at hp
    cases ea with
    | some e' => simp at hp
    | none =>
      dsimp only at hp
      by_cases hn0 : na = 0
      · rw [if_pos hn0] at hp
        simp only [Prod.mk.injEq] at hp
        obtain ⟨h1, h2, -⟩ := hp
        rw [hn0] at hps
        obtain ⟨hzr, -⟩ := parseSingle_line_zero r ra P hline hps
        subst h1
        subst hzr
        rw [← h2] at hc
        simp only [List.drop_zero] at hc
        exact ⟨r₂, t, hc⟩
      · rw [if_neg hn0] at hp
        have hfound : ∃ idx, findCRLF P = some idx := by
          cases hfc : findCRLF P with
          | some idx => exact ⟨idx, rfl⟩
          | none =>
            exfalso
            rw [parseSingle_line_none r P hline hfc] at hps
            simp only [Prod.mk.injEq] at hps
            exact hn0 hps.2.1.symm
        obtain ⟨idx, hf⟩ := hfound
        have hna_le : na ≤ P.length := by
          have h := parseSingle_le r P
          rw [hps] at h
          simpa using h
        rcases hq : Request.parse ra (P.drop na) with ⟨rb, nb, eb⟩
        rw [hq] at hp
        dsimp only at hp
        simp only [Prod.mk.injEq] at hp
        obtain ⟨h1, h2, h3⟩ := hp
        subst h1
        cases eb with
        | some e' => simp at h3
        | none =>
          subst h2
          have hdd : P.drop (na + nb) = (P.drop na).drop nb := by
            rw [List.drop_drop]
          rw [hdd] at hc
          have hlen2 : (P.drop na).length < bound := by
            simp only [List.length_drop]
            omega
          obtain ⟨r₃, n₃, hcomp⟩ :=
            ih (P.drop na).length hlen2 (P.drop na) le_rfl ra s rb nb r₂ t e hq hnd hc
          refine ⟨r₃, na + n₃, ?_⟩
          rw [parse_unfold]
          simp only [hnd0, if_false]
          rw [parseSingle_line_ext r P s idx hline hf, hps]
          dsimp only
          rw [if_neg hn0]
          rw [List.drop_append_of_le_length hna_le]
          rw [hcomp]
  · cases hst : r.state with
    | initialized => exact absurd (.inl hst) hline
    | headers => exact absurd (.inr hst) hline
    | done =>
      rw [parse_done r P hst] at hp
      simp only [Prod.mk.injEq] at hp
      exact absurd (hp.1 ▸ hst) hnd
    | body =>
      rw [parse_body_char r P hst] at hp
      cases hgav : getAndValidateContentLength r with
      | error e' => rw [hgav] at hp; simp at hp
      | ok cl =>
        rw [hgav] at hp
        dsimp only at hp
        by_cases h0 : cl = 0
        · rw [if_pos h0] at hp
          simp only [Prod.mk.injEq] at hp
          exact absurd (hp.1 ▸ rfl) hnd
        · rw [if_neg h0] at hp
          by_cases hgt : ((((goAppend r.body P).getD []).length : Int) > cl)
          · rw [if_pos hgt] at hp
            simp at hp
          · rw [if_neg hgt] at hp
            by_cases heq2 : ((((goAppend r.body P).getD []).length : Int) = cl)
            · rw [if_pos heq2] at hp
              simp only [Prod.mk.injEq] at hp
              exact absurd (hp.1 ▸ rfl) hnd
            · rw [if_neg heq2] at hp
              simp only [Prod.mk.injEq] at hp
              obtain ⟨h1, h2, -⟩ := hp
              subst h1
              subst h2
              rw [List.drop_length, List.nil_append] at hc
              have hst1 : ({ r with body := goAppend r.body P } : Request).state = .body := by
                simpa using hst
              rw [parse_body_char _ s hst1] at hc
              have hgav1 :
                  getAndValidateContentLength { r with body := goAppend r.body P } = .ok cl := by
                rw [gav_headers_eq { r with body := goAppend r.body P } r rfl]
                exact hgav
              rw [hgav1] at hc
              dsimp only at hc
              rw [if_neg h0] at hc
              simp only [goAppend_assoc] at hc
              by_cases hgt2 : ((((goAppend r.body (P ++ s)).getD []).length : Int) > cl)
              · rw [if_pos hgt2] at hc
                simp only [Prod.mk.injEq] at hc
                obtain ⟨-, -, h3⟩ := hc
                refine ⟨{ r with body := goAppend r.body (P ++ s) }, 0, ?_⟩
                rw [parse_body_char r (P ++ s) hst, hgav]
                dsimp only
                rw [if_neg h0, if_pos hgt2, h3]
              · rw [if_neg hgt2] at hc
                by_cases heq3 : ((((goAppend r.body (P ++ s)).getD []).length : Int) = cl)
                · rw [if_pos heq3] at hc
                  simp at hc
                · rw [if_neg heq3] at hc
                  simp at hc

/-- Parse errors are stable under extending the buffer: the same steps replay
and the failing step fails identically (a longer body can only exceed more). -/
theorem parse_err_mono_aux : ∀ (bound : Nat) (P : Bytes), P.length ≤ bound →
    ∀ (r : Request) (s : Bytes) (r₁ : Request) (n₁ : Nat) (e : ReqError),
    r.parse P = (r₁, n₁, some e) →
    ∃ r₂ n₂, r.parse (P ++ s) = (r₂, n₂, some e) := by
  intro bound
  induction bound using Nat.strong_induction_on with
  | _ bound ih =>
  intro P hlen r s r₁ n₁ e hp
  by_cases hline : r.state = .initialized ∨ r.state = .headers
  · have hnd0 : ¬r.state = .done := by rcases hline with h | h <;> simp [h]
    rw [parse_unfold] at hp
    simp only [hnd0, if_false] at hp
    rcases hps : r.parseSingle P with ⟨ra, na, ea⟩
    rw [hps] at hp
    cases ea with
    | some e' =>
      dsimp only at hp
      simp only [Prod.mk.injEq] at hp
      obtain ⟨h1, h2, h3⟩ := hp
      have hfound : ∃ idx, findCRLF P = some idx := by
        cases hfc : findCRLF P with
        | some idx => exact ⟨idx, rfl⟩
        | none =>
          exfalso
          rw [parseSingle_line_none r P hline hfc] at hps
          simp only [Prod.mk.injEq] at hps
          simpa using hps.2.2
      obtain ⟨idx, hf⟩ := hfound
      refine ⟨ra, 0, ?_⟩
      rw [parse_unfold]
      simp only [hnd0, if_false]
      rw [parseSingle_line_ext r P s idx hline hf, hps]
      dsimp only
      rw [← h3]
    | none =>
      dsimp only at hp
      by_cases hn0 : na = 0
      · rw [if_pos hn0] at hp
        simp at hp
      · rw [if_neg hn0] at hp
        have hfound : ∃ idx, findCRLF P = some idx := by
          cases hfc : findCRLF P with
          | some idx => exact ⟨idx, rfl⟩
          | none =>
            exfalso
            rw [parseSingle_line_none r P hline hfc] at hps
            simp only [Prod.mk.injEq] at hps
            exact hn0 hps.2.1.symm
        obtain ⟨idx, hf⟩ := hfound
        have hna_le : na ≤ P.length := by
          have h := parseSingle_le r P
          rw [hps] at h
          simpa using h
        rcases hq : Request.parse ra (P.drop na) with ⟨rb, nb, eb⟩
        rw [hq] at hp
        dsimp only at hp
        simp only [Prod.mk.injEq] at hp
        obtain ⟨h1, h2, h3⟩ := hp
        cases eb with
        | none => simp at h3
        | some e' =>
          have he : e' = e := by simpa using h3
          have hlen2 : (P.drop na).length < bound := by
            simp only [List.length_drop]
            omega
          obtain ⟨r₃, n₃, hcomp⟩ :=
            ih (P.drop na).length hlen2 (P.drop na) le_rfl ra s rb nb e' hq
          refine ⟨r₃, na + n₃, ?_⟩
          rw [parse_unfold]
          simp only [hnd0, if_false]
          rw [parseSingle_line_ext r P s idx hline hf, hps]
          dsimp only
          rw [if_neg hn0]
          rw [List.drop_append_of_le_length hna_le]
          rw [hcomp]
          dsimp only
          rw [he]
  · cases hst : r.state with
    | initialized => exact absurd (.inl hst) hline
    | headers => exact absurd (.inr hst) hline
    | done =>
      rw [parse_done r P hst] at hp
      simp at hp
    | body =>
      rw [parse_body_char r P hst] at hp
      cases hgav : getAndValidateContentLength r with
      | error e' =>
        rw [hgav] at hp
        dsimp only at hp
        simp only [Prod.mk.injEq] at hp
        obtain ⟨-, -, h3⟩ := hp
        refine ⟨r, 0, ?_⟩
        rw [parse_body_char r (P ++ s) hst, hgav]
        dsimp only
        rw [← h3]
      | ok cl =>
        rw [hgav] at hp
        dsimp only at hp
        by_cases h0 : cl = 0
        · rw [if_pos h0] at hp
          simp at hp
        · rw [if_neg h0] at hp
          by_cases hgt : ((((goAppend r.body P).getD []).length : Int) > cl)
          · rw [if_pos hgt] at hp
            simp only [Prod.mk.injEq] at hp
            obtain ⟨-, -, h3⟩ := hp
            have hgt2 : ((((goAppend r.body (P ++ s)).getD []).length : Int) > cl) := by
              have hl1 := goAppend_len r.body P
              have hl2 := goAppend_len r.body (P ++ s)
              simp only [List.length_append] at hl2
              omega
            refine ⟨{ r with body := goAppend r.body (P ++ s) }, 0, ?_⟩
            rw [parse_body_char r (P ++ s) hst, hgav]
            dsimp only
            rw [if_neg h0, if_pos hgt2, ← h3]
          · rw [if_neg hgt] at hp
            by_cases heq2 : ((((goAppend r.body P).getD []).length : Int) = cl)
            · rw [if_pos heq2] at hp
              simp at hp
            · rw [if_neg heq2] at hp
              simp at hp

/-- Extending a parse that already finished: either the extension makes the
parse fail (the body would overflow), or nothing more is consumed. -/
theorem parse_done_ext_aux : ∀ (bound : Nat) (P : Bytes), P.length ≤ bound →
    ∀ (r : Request) (s : Bytes) (r₁ : Request) (n₁ : Nat),
    r.parse P = (r₁, n₁, none) → r₁.state = .done →
    (∃ r₂ n₂ e, r.parse (P ++ s) = (r₂, n₂, some e)) ∨ r.parse (P ++ s) = (r₁, n₁, none) := by
  intro bound
  induction bound using Nat.strong_induction_on with
  | _ bound ih =>
  intro P hlen r s r₁ n₁ hp hd1
  by_cases hline : r.state = .initialized ∨ r.state = .headers
  · have hnd0 : ¬r.state = .done := by rcases hline with h | h <;> simp [h]
    rw [parse_unfold] at hp
    simp only [hnd0, if_false] at hp
    rcases hps : r.parseSingle P with ⟨ra, na, ea⟩
    rw [hps] at hp
    cases ea with
    | some e' => simp at hp
    | none =>
      dsimp only at hp
      by_cases hn0 : na = 0
      · rw [if_pos hn0] at hp
        simp only [Prod.mk.injEq] at hp
        obtain ⟨h1, h2, -⟩ := hp
        rw [hn0] at hps
        obtain ⟨hzr, -⟩ := parseSingle_line_zero r ra P hline hps
        subst h1
        subst hzr
        rw [hd1] at hnd0
        rcases hline with h | h <;> simp [h] at hnd0
      · rw [if_neg hn0] at hp
        have hfound : ∃ idx, findCRLF P = some idx := by
          cases hfc : findCRLF P with
          | some idx => exact ⟨idx, rfl⟩
          | none =>
            exfalso
            rw [parseSingle_line_none r P hline hfc] at hps
            simp only [Prod.mk.injEq] at hps
            exact hn0 hps.2.1.symm
        obtain ⟨idx, hf⟩ := hfound
        have hna_le : na ≤ P.length := by
          have h := parseSingle_le r P
          rw [hps] at h
          simpa using h
        rcases hq : Request.parse ra (P.drop na) with ⟨rb, nb, eb⟩
        rw [hq] at hp
        dsimp only at hp
        simp only [Prod.mk.injEq] at hp
        obtain ⟨h1, h2, h3⟩ := hp
        subst h1
        cases eb with
        | some e' => simp at h3
        | none =>
          subst h2
          have hlen2 : (P.drop na).length < bound := by
            simp only [List.length_drop]
            omega
          rcases ih (P.drop na).length hlen2 (P.drop na) le_rfl ra s rb nb hq hd1 with
            ⟨r₂, n₂, e, herr⟩ | hok
          · refine .inl ⟨r₂, na + n₂, e, ?_⟩
            rw [parse_unfold]
            simp only [hnd0, if_false]
            rw [parseSingle_line_ext r P s idx hline hf, hps]
            dsimp only
            rw [if_neg hn0]
            rw [List.drop_append_of_le_length hna_le]
            rw [herr]
          · refine .inr ?_
            rw [parse_unfold]
            simp only [hnd0, if_false]
            rw [parseSingle_line_ext r P s idx hline hf, hps]
            dsimp only
            rw [if_neg hn0]
            rw [List.drop_append_of_le_length hna_le]
            rw [hok]
  · cases hst : r.state with
    | initialized => exact absurd (.inl hst) hline
    | headers => exact absurd (.inr hst) hline
    | done =>
      rw [parse_done r P hst] at hp
      simp only [Prod.mk.injEq] at hp
      obtain ⟨h1, h2, -⟩ := hp
      subst h1
      subst h2
      exact .inr (parse_done r (P ++ s) hst)
    | body =>
      rw [parse_body_char r P hst] at hp
      cases hgav : getAndValidateContentLength r with
      | error e' => rw [hgav] at hp; simp at hp
      | ok cl =>
        rw [hgav] at hp
        dsimp only at hp
        by_cases h0 : cl = 0
        · rw [if_pos h0] at hp
          simp only [Prod.mk.injEq] at hp
          obtain ⟨h1, h2, -⟩ := hp
          subst h1
          subst h2
          refine .inr ?_
          rw [parse_body_char r (P ++ s) hst, hgav]
          dsimp only
          rw [if_pos h0]
        · rw [if_neg h0] at hp
          by_cases hgt : ((((goAppend r.body P).getD []).length : Int) > cl)
          · rw [if_pos hgt] at hp
            simp at hp
          · rw [if_neg hgt] at hp
            by_cases heq2 : ((((goAppend r.body P).getD []).length : Int) = cl)
            · rw [if_pos heq2] at hp
              simp only [Prod.mk.injEq] at hp
              obtain ⟨h1, h2, -⟩ := hp
              subst h1
              subst h2
              by_cases hs0 : s = []
              · subst hs0
                refine .inr ?_
                rw [List.append_nil]
                rw [parse_body_char r P hst, hgav]
                dsimp only
                rw [if_neg h0, if_neg hgt, if_pos heq2]
              · refine .inl ⟨{ r with body := goAppend r.body (P ++ s) }, 0,
                  .bodyExceedsContentLength, ?_⟩
                have hs1 : 0 < s.length := List.length_pos.mpr hs0
                have hgt2 : ((((goAppend r.body (P ++ s)).getD []).length : Int) > cl) := by
                  have hl1 := goAppend_len r.body P
                  have hl2 := goAppend_len r.body (P ++ s)
                  simp only [List.length_append] at hl2
                  omega
                rw [parse_body_char r (P ++ s) hst, hgav]
                dsimp only
                rw [if_neg h0, if_pos hgt2]
            · rw [if_neg heq2] at hp
              simp only [Prod.mk.injEq] at hp
              obtain ⟨h1, -, -⟩ := hp
              rw [← h1] at hd1
              simp only at hd1
              rw [hst] at hd1
              simp at hd1




theorem drop_append_drop (l₁ l₂ : Bytes) (a m : Nat) (ha : a ≤ l₁.length) :
    (l₁.drop a ++ l₂).drop m = (l₁ ++ l₂).drop (a + m) := by
  rw [← List.drop_drop]
  rw [List.drop_append_of_le_length ha]

/-! ### The buffered reader loop refines the one-shot parse -/

theorem parse_new_nil : Request.parse NewRequest [] = (NewRequest, 0, none) := rfl

/-- Master refinement: if parsing the whole byte string in one shot succeeds
and consumes every byte, then `RequestFromReader` over the chunked source
returns exactly that request, for every positive chunk size. -/
theorem rfr_master (data : Bytes) (R : Request) (k : Nat)
    (hwf : Request.parse NewRequest data = (R, data.length, none)) (hk : 1 ≤ k) :
    RequestFromReader data k = .ok R := by
  suffices h : ∀ fuel req buf cap pos,
      data.length - pos < fuel →
      pos ≤ data.length →
      buf.length ≤ pos →
      Request.parse NewRequest (data.take pos) = (req, pos - buf.length, none) →
      buf = (data.take pos).drop (pos - buf.length) →
      (req.state = .done → pos = data.length) →
      buf.length ≤ cap → 1 ≤ cap →
      rfrAux data k fuel req buf cap pos = .ok R by
    refine h (data.length + 1) NewRequest [] bufferSize 0 (by omega) (by omega) (by simp) ?_ ?_ ?_ ?_ ?_
    · simpa using parse_new_nil
    · simp
    · intro hd
      simp [NewRequest] at hd
    · simp [bufferSize]
    · simp [bufferSize]
  intro fuel
  induction fuel with
  | zero => intro req buf cap pos h1; omega
  | succ f ih =>
    intro req buf cap pos hfuel hpos hbl hinv hbuf hdone hcap hcap1
    rw [rfrAux]
    by_cases hd : req.state = .done
    · rw [if_pos hd]
      have hpd := hdone hd
      subst hpd
      rw [List.take_length] at hinv
      have hcmp := hinv.symm.trans hwf
      simp only [Prod.mk.injEq] at hcmp
      rw [hcmp.1]
    · rw [if_neg hd]
      dsimp only
      by_cases hpe : data.length ≤ pos
      · rw [if_pos hpe]
        have hpd : pos = data.length := by omega
        subst hpd
        rw [List.take_length] at hinv
        have hcmp := hinv.symm.trans hwf
        simp only [Prod.mk.injEq] at hcmp
        rw [hcmp.1]
      · rw [if_neg hpe]
        have hfree : buf.length < (if cap ≤ buf.length then cap * 2 else cap) := by
          by_cases hc : cap ≤ buf.length <;> simp [hc] <;> omega
        set cap' := if cap ≤ buf.length then cap * 2 else cap with hcapdef
        set n := min (min k (cap' - buf.length)) (data.length - pos) with hndef
        have hn1 : 1 ≤ n := by
          rw [hndef]
          have h1 : 1 ≤ k := hk
          have h2 : 1 ≤ cap' - buf.length := by omega
          have h3 : 1 ≤ data.length - pos := by omega
          omega
        have hnle : n ≤ data.length - pos := min_le_right _ _
        have hncap : n ≤ cap' - buf.length :=
          le_trans (min_le_left _ _) (min_le_right _ _)
        set chunk := (data.drop pos).take n with hchunkdef
        have hclen : chunk.length = n := by
          rw [hchunkdef]
          simp only [List.length_take, List.length_drop]
          omega
        have htake : data.take pos ++ chunk = data.take (pos + n) := by
          rw [hchunkdef, List.take_add]
        rcases hq : Request.parse req (buf ++ chunk) with ⟨r', m, e⟩
        have hcb : req.parse ((data.take pos).drop (pos - buf.length) ++ chunk)
            = (r', m, e) := by
          rw [← hbuf]
          exact hq
        cases e with
        | some er =>
          exfalso
          obtain ⟨r₃, n₃, herr⟩ := parse_compose_err_aux (data.take pos).length
            (data.take pos) le_rfl NewRequest chunk req (pos - buf.length) r' m er hinv hd hcb
          rw [htake] at herr
          obtain ⟨r₄, n₄, herr2⟩ := parse_err_mono_aux (data.take (pos + n)).length
            (data.take (pos + n)) le_rfl NewRequest (data.drop (pos + n)) r₃ n₃ er herr
          rw [List.take_append_drop] at herr2
          rw [hwf] at herr2
          simp at herr2
        | none =>
          dsimp only
          have hstep := parse_compose_ok (data.take pos) chunk NewRequest req r'
            (pos - buf.length) m hinv hd hcb
          rw [htake] at hstep
          have hmle : m ≤ buf.length + n := by
            have hc := parse_le req (buf ++ chunk)
            rw [hq] at hc
            simp only [List.length_append, hclen] at hc
            simpa using hc
          have hlen' : ((buf ++ chunk).drop m).length = buf.length + n - m := by
            simp [hclen]
          have harith : (pos + n) - (buf.length + n - m) = (pos - buf.length) + m := by
            omega
          apply ih r' ((buf ++ chunk).drop m) cap' (pos + n)
          · omega
          · omega
          · rw [hlen']; omega
          · rw [hlen', harith]
            exact hstep
          · rw [hlen', harith]
            have hbc : buf ++ chunk = (data.take pos).drop (pos - buf.length) ++ chunk := by
              conv_lhs => rw [hbuf]
            rw [hbc, drop_append_drop (data.take pos) chunk (pos - buf.length) m
              (by simp only [List.length_take]; omega), htake]
          · intro hrd
            by_contra hne
            have hlt : pos + n < data.length := by omega
            rcases parse_done_ext_aux (data.take (pos + n)).length (data.take (pos + n))
                le_rfl NewRequest (data.drop (pos + n)) r' ((pos - buf.length) + m) hstep hrd with
              ⟨r₂, n₂, e, herr⟩ | hok
            · rw [List.take_append_drop] at herr
              rw [hwf] at herr
              simp at herr
            · rw [List.take_append_drop] at hok
              rw [hwf] at hok
              simp only [Prod.mk.injEq] at hok
              have hcount := hok.2.1
              omega
          · rw [hlen']; omega
          · omega




/-! ### Facts about trimming, splitting and the header map -/

theorem trimSpace_decomp (s : Bytes) :
    ∃ pre suf, s = pre ++ trimSpace s ++ suf ∧
      (∀ b ∈ pre, isGoSpace b = true) ∧ (∀ b ∈ suf, isGoSpace b = true) := by
  refine ⟨s.takeWhile isGoSpace,
    ((s.dropWhile isGoSpace).reverse.takeWhile isGoSpace).reverse, ?_, ?_, ?_⟩
  · have hmid : s.dropWhile isGoSpace =
        trimSpace s ++ ((s.dropWhile isGoSpace).reverse.takeWhile isGoSpace).reverse := by
      conv_lhs => rw [← List.reverse_reverse (s.dropWhile isGoSpace)]
      conv_lhs =>
        rw [← List.takeWhile_append_dropWhile (p := isGoSpace)
          (l := (s.dropWhile isGoSpace).reverse)]
      rw [List.reverse_append]
      rfl
    conv_lhs => rw [← List.takeWhile_append_dropWhile (p := isGoSpace) (l := s), hmid]
    rw [List.append_assoc]
  · intro b hb
    exact List.mem_takeWhile_imp hb
  · intro b hb
    rw [List.mem_reverse] at hb
    exact List.mem_takeWhile_imp hb

theorem splitOnFirst_append (c : Nat) (l₁ l₂ : Bytes) (hc : ¬c ∈ l₁) :
    splitOnFirst c (l₁ ++ c :: l₂) = some (l₁, l₂) := by
  induction l₁ with
  | nil => simp [splitOnFirst]
  | cons b rest ih =>
    have hbc : ¬b = c := fun h => hc (by simp [h])
    have hrest : ¬c ∈ rest := fun h => hc (by simp [h])
    simp only [List.cons_append]
    rw [splitOnFirst]
    simp only [hbc, if_false]
    rw [ih hrest]
    rfl

theorem splitOn_ne_nil (c : Nat) (l : Bytes) : ¬splitOn c l = [] := by
  cases l with
  | nil => simp [splitOn]
  | cons b rest =>
    rw [splitOn]
    by_cases hb : b = c
    · simp [hb]
    · simp only [hb, if_false]
      cases splitOn c rest <;> simp

theorem splitOn_not_mem (c : Nat) (l : Bytes) (hc : ¬c ∈ l) : splitOn c l = [l] := by
  induction l with
  | nil => rfl
  | cons b rest ih =>
    have hbc : ¬b = c := fun h => hc (by simp [h])
    have hrest : ¬c ∈ rest := fun h => hc (by simp [h])
    rw [splitOn]
    simp only [hbc, if_false]
    rw [ih hrest]

theorem splitOn_append (c : Nat) (a rest : Bytes) (hc : ¬c ∈ a) :
    splitOn c (a ++ c :: rest) = a :: splitOn c rest := by
  induction a with
  | nil => simp [splitOn]
  | cons b tl ih =>
    have hbc : ¬b = c := fun h => hc (by simp [h])
    have htl : ¬c ∈ tl := fun h => hc (by simp [h])
    simp only [List.cons_append]
    rw [splitOn]
    simp only [hbc, if_false]
    rw [ih htl]

theorem asciiLower_idem (b : Nat) : asciiLower (asciiLower b) = asciiLower b := by
  unfold asciiLower
  by_cases h : 65 ≤ b ∧ b ≤ 90
  · rw [if_pos h, if_neg (by omega)]
  · rw [if_neg h, if_neg h]

theorem lowerBytes_idem (s : Bytes) : lowerBytes (lowerBytes s) = lowerBytes s := by
  unfold lowerBytes
  rw [List.map_map]
  exact List.map_congr_left (fun b _ => asciiLower_idem b)

theorem lookupPairs_set_fresh (ps : List (Bytes × Bytes)) (key v : Bytes)
    (h : lookupPairs ps key = none) :
    lookupPairs (setPairs ps key v) key = some v := by
  induction ps with
  | nil => simp [setPairs, lookupPairs]
  | cons p rest ih =>
    obtain ⟨k, w⟩ := p
    rw [lookupPairs] at h
    by_cases hk : k = key
    · rw [if_pos hk] at h
      simp at h
    · rw [if_neg hk] at h
      rw [setPairs]
      simp only [hk, if_false]
      rw [lookupPairs]
      simp only [hk, if_false]
      exact ih h

theorem lookupPairs_set_existing (ps : List (Bytes × Bytes)) (key v w : Bytes)
    (h : lookupPairs ps key = some v) :
    lookupPairs (setPairs ps key w) key = some (v ++ 44 :: 32 :: w) := by
  induction ps with
  | nil => simp [lookupPairs] at h
  | cons p rest ih =>
    obtain ⟨k, u⟩ := p
    rw [lookupPairs] at h
    by_cases hk : k = key
    · rw [if_pos hk] at h
      simp only [Option.some.injEq] at h
      subst h
      rw [setPairs]
      simp only [hk, if_true]
      rw [lookupPairs]
      simp [hk]
    · rw [if_neg hk] at h
      rw [setPairs]
      simp only [hk, if_false]
      rw [lookupPairs]
      simp only [hk, if_false]
      exact ih h

/-! ### The scripted reader loop: EOF reads discard their payload -/

theorem rfrScript_eof_stops (reads : List (Bytes × Bool)) (c : Bytes)
    (rest : List (Bytes × Bool)) (req : Request) (buf : Bytes) (cap : Nat) :
    rfrScriptAux (reads ++ (c, true) :: rest) req buf cap = rfrScriptAux reads req buf cap := by
  induction reads generalizing req buf cap with
  | nil =>
    rw [rfrScriptAux, rfrScriptAux]
    by_cases hd : req.state = .done
    · simp [hd]
    · simp [hd]
  | cons hdr tl ih =>
    rw [rfrScriptAux, rfrScriptAux]
    by_cases hd : req.state = .done
    · simp [hd]
    · simp only [hd, if_false]
      obtain ⟨chunk, isEof⟩ := hdr
      dsimp only [List.cons_append]
      by_cases he : isEof
      · simp [he]
      · simp only [he, if_false, Bool.false_eq_true]
        rcases hq : req.parse (buf ++ chunk.take ((if cap ≤ buf.length then cap * 2 else cap) - buf.length)) with ⟨r', m, e⟩
        cases e with
        | some er => rfl
        | none => exact ih r' _ _

/-! ### Claim theorems -/

/-- C1: chunk-size invariance of the full parse.  For every well-formed
request byte string (one-shot `parse` from the initial state succeeds,
consumes every byte and ends in `Done`), `RequestFromReader` over a
chunked source delivering the same bytes in chunks of any positive size
`k` (including splits landing between the CR and LF) produces the same
parsed request — same request line, headers and body — in every case. -/
theorem chunkInvariance (data : Bytes) (R : Request) (k : Nat)
    (hwf : Request.parse NewRequest data = (R, data.length, none))
    (hdone : R.state = .done) (hk : 1 ≤ k) :
    RequestFromReader data k = .ok R :=
  rfr_master data R k hwf hk

/-- Witness for C1 at `"GET / HTTP/1.1\r\nHost: a\r\n\r\n"` with 3-byte reads. -/
theorem chunkInvariance_witness : RequestFromReader c1data 3 = .ok c1R :=
  chunkInvariance c1data c1R 3 (by rfl) (by rfl) (by decide)

/-- C2 counterexample: with `Content-Length: 0` the parsed request's `Body`
is nil (`none`), not a present-but-empty slice (`some []`) as the claim
asserts, so the claimed present/absent distinction does not exist. -/
theorem clZeroBody_cex :
    (RequestFromReader cl0Data 5).map Request.body = .ok none ∧
    (Except.ok none : Except ReqError (Option Bytes)) ≠ .ok (some []) := by
  constructor
  · rfl
  · simp

/-- C2 amended: in the `Body` state a validated content length of `0`
(whether the Content-Length header is `"0"` or absent — `Get` cannot tell the
two apart) moves the parser straight to `Done`, consumes nothing and leaves
`Body` untouched, so both a `Content-Length: 0` request and one without the
header end with `Body` nil: the two outcomes are *not* distinguishable
through `Body`. -/
theorem clZeroBody (r : Request) (d : Bytes) (hs : r.state = .body)
    (hcl : getAndValidateContentLength r = .ok 0) :
    r.parseSingle d = ({ r with state := .done }, 0, none) ∧
    ({ r with state := .done } : Request).body = r.body ∧
    (RequestFromReader cl0Data 5).map Request.body = .ok none ∧
    (RequestFromReader noClData 10).map Request.body = .ok none := by
  refine ⟨?_, rfl, by rfl, by rfl⟩
  rw [parseSingle_body_unfold r d hs, hcl]
  dsimp only
  rw [if_pos rfl]

/-- Witness for C2's amended theorem at a body-state request with no
Content-Length header. -/
theorem clZeroBody_witness :
    noClBodyReq.parseSingle [55] = ({ noClBodyReq with state := .done }, 0, none) :=
  (clZeroBody noClBodyReq [55] (by rfl) (by rfl)).1

/-- C3: partial body at end of stream is not an error.  If the head of the
stream parses to the `Body` state with a validated Content-Length `N` and the
source then delivers only `bodyBytes` with fewer than `N` bytes before
exhaustion, `RequestFromReader` returns the request without error, its body
holds exactly the received bytes, and the state is short of `Done`. -/
theorem partialBodyNoError (head bodyBytes : Bytes) (rH : Request) (N : Int) (k : Nat)
    (hH : Request.parse NewRequest head = (rH, head.length, none))
    (hstate : rH.state = .body) (hbody : rH.body = none)
    (hcl : getAndValidateContentLength rH = .ok N)
    (hlt : (bodyBytes.length : Int) < N) (hk : 1 ≤ k) :
    ∃ req, RequestFromReader (head ++ bodyBytes) k = .ok req ∧
      req.body.getD [] = bodyBytes ∧ ¬req.state = .done := by
  have hN0 : ¬(N = 0) := by omega
  have hlenb : (((goAppend rH.body bodyBytes).getD []).length : Int) = bodyBytes.length := by
    rw [goAppend_len, hbody]
    simp
  have hchar := parse_body_char rH bodyBytes hstate
  rw [hcl] at hchar
  dsimp only at hchar
  rw [if_neg hN0, if_neg (by omega), if_neg (by omega)] at hchar
  have hcomp := parse_compose_ok head bodyBytes NewRequest rH
    { rH with body := goAppend rH.body bodyBytes } head.length bodyBytes.length hH
    (by rw [hstate]; simp)
    (by rw [List.drop_length, List.nil_append]; exact hchar)
  have hwf2 : Request.parse NewRequest (head ++ bodyBytes) =
      ({ rH with body := goAppend rH.body bodyBytes }, (head ++ bodyBytes).length, none) := by
    rw [List.length_append]
    exact hcomp
  refine ⟨{ rH with body := goAppend rH.body bodyBytes },
    rfr_master (head ++ bodyBytes) _ k hwf2 hk, ?_, ?_⟩
  · show (goAppend rH.body bodyBytes).getD [] = bodyBytes
    rw [hbody]
    by_cases hbs : bodyBytes = [] <;> simp [goAppend, hbs]
  · show ¬rH.state = .done
    rw [hstate]
    simp

/-- Witness for C3: `"POST /s HTTP/1.1\r\nContent-Length: 20\r\n\r\n"` followed
by the 15-byte `"partial content"`, read 3 bytes at a time. -/
theorem partialBodyNoError_witness :
    ∃ req, RequestFromReader (c3head ++ c3body) 3 = .ok req ∧
      req.body.getD [] = c3body ∧ ¬req.state = .done :=
  partialBodyNoError c3head c3body c3rH 20 3 (by rfl) (by rfl) (by rfl)
    (by rfl) (by decide) (by decide)

/-- C9: once the state machine is `Done`, the outer `parse` loop returns
`(0, no error)` without invoking a step, while a direct `parseSingle` call in
the `Done` state is what yields the `ParserAlreadyDone` error. -/
theorem doneStateBehaviour (r : Request) (d : Bytes) (h : r.state = .done) :
    r.parse d = (r, 0, none) ∧ r.parseSingle d = (r, 0, some .parserDone) :=
  ⟨parse_done r d h, parseSingle_done r d h⟩

/-- Witness for C9 at a concrete finished request. -/
theorem doneStateBehaviour_witness :
    doneReq.parse [1, 2, 3] = (doneReq, 0, none) ∧
    doneReq.parseSingle [1, 2, 3] = (doneReq, 0, some .parserDone) :=
  doneStateBehaviour doneReq [1, 2, 3] (by rfl)

/-- C10: a read that returns bytes together with the end-of-input signal has
those bytes silently discarded — the loop breaks before appending them, so
the result is the same as if the source had ended one read earlier; only
bytes delivered by non-EOF reads ever reach the state machine. -/
theorem eofBytesDiscarded (reads : List (Bytes × Bool)) (c : Bytes)
    (rest : List (Bytes × Bool)) :
    RequestFromReaderScripted (reads ++ (c, true) :: rest) =
      RequestFromReaderScripted reads :=
  rfrScript_eof_stops reads c rest NewRequest [] bufferSize



/-- C4: Content-Length validation on entry to the `Body` state, in source
order: a non-empty value containing a comma errors `MultipleContentLength`;
a value that fails 64-bit integer parsing errors `InvalidContentLength`;
a negative parsed value errors the negative-value variant of
`InvalidContentLength`; a parsed value strictly above 10 MiB errors
`ContentLengthTooLarge`, while exactly 10 MiB is accepted; and any such
error aborts the `parse` loop, consuming nothing. -/
theorem contentLengthValidation :
    (∀ r : Request, ¬r.headers.get contentLengthKey = [] →
      (r.headers.get contentLengthKey).contains 44 = true →
      getAndValidateContentLength r = .error .multipleContentLength) ∧
    (∀ r : Request, ¬r.headers.get contentLengthKey = [] →
      (r.headers.get contentLengthKey).contains 44 = false →
      parseInt64 (r.headers.get contentLengthKey) = none →
      getAndValidateContentLength r = .error (.invalidContentLength false)) ∧
    (∀ (r : Request) (n : Int), ¬r.headers.get contentLengthKey = [] →
      (r.headers.get contentLengthKey).contains 44 = false →
      parseInt64 (r.headers.get contentLengthKey) = some n → n < 0 →
      getAndValidateContentLength r = .error (.invalidContentLength true)) ∧
    (∀ (r : Request) (n : Int), ¬r.headers.get contentLengthKey = [] →
      (r.headers.get contentLengthKey).contains 44 = false →
      parseInt64 (r.headers.get contentLengthKey) = some n → 0 ≤ n →
      maxContentLength < n →
      getAndValidateContentLength r = .error .contentLengthTooLarge) ∧
    (∀ r : Request, ¬r.headers.get contentLengthKey = [] →
      (r.headers.get contentLengthKey).contains 44 = false →
      parseInt64 (r.headers.get contentLengthKey) = some maxContentLength →
      getAndValidateContentLength r = .ok maxContentLength) ∧
    (∀ (r : Request) (d : Bytes) (e : ReqError), r.state = .body →
      getAndValidateContentLength r = .error e →
      r.parse d = (r, 0, some e)) := by
  refine ⟨?_, ?_, ?_, ?_, ?_, ?_⟩
  · intro r h1 h2
    unfold getAndValidateContentLength
    rw [if_neg h1, if_pos h2]
  · intro r h1 h2 h3
    unfold getAndValidateContentLength
    rw [if_neg h1, if_neg (by simpa using h2), h3]
  · intro r n h1 h2 h3 h4
    unfold getAndValidateContentLength
    rw [if_neg h1, if_neg (by simpa using h2), h3]
    dsimp only
    rw [if_pos h4]
  · intro r n h1 h2 h3 h4 h5
    unfold getAndValidateContentLength
    rw [if_neg h1, if_neg (by simpa using h2), h3]
    dsimp only
    rw [if_neg (by omega), if_pos h5]
  · intro r h1 h2 h3
    unfold getAndValidateContentLength
    rw [if_neg h1, if_neg (by simpa using h2), h3]
    dsimp only
    rw [if_neg (by unfold maxContentLength; omega), if_neg (by omega)]
  · intro r d e hs hgav
    rw [parse_body_char r d hs, hgav]

/-- Witness for C4, exercising each validation path on concrete requests:
`"10, 20"`, `"not-a-number"`, `"-100"`, `"999999999999"` and `"10485760"`. -/
theorem contentLengthValidation_witness :
    getAndValidateContentLength (bodyStateReq [49, 48, 44, 32, 50, 48])
      = .error .multipleContentLength ∧
    getAndValidateContentLength
        (bodyStateReq [110, 111, 116, 45, 97, 45, 110, 117, 109, 98, 101, 114])
      = .error (.invalidContentLength false) ∧
    getAndValidateContentLength (bodyStateReq [45, 49, 48, 48])
      = .error (.invalidContentLength true) ∧
    getAndValidateContentLength (bodyStateReq [57, 57, 57, 57, 57, 57, 57, 57, 57, 57, 57, 57])
      = .error .contentLengthTooLarge ∧
    getAndValidateContentLength (bodyStateReq [49, 48, 52, 56, 53, 55, 54, 48])
      = .ok maxContentLength ∧
    (bodyStateReq [45, 49, 48, 48]).parse [1, 2, 3]
      = (bodyStateReq [45, 49, 48, 48], 0, some (.invalidContentLength true)) := by
  refine ⟨?_, ?_, ?_, ?_, ?_, ?_⟩
  · exact contentLengthValidation.1 (bodyStateReq [49, 48, 44, 32, 50, 48])
      (by decide) (by decide)
  · exact contentLengthValidation.2.1
      (bodyStateReq [110, 111, 116, 45, 97, 45, 110, 117, 109, 98, 101, 114])
      (by decide) (by decide) (by rfl)
  · exact contentLengthValidation.2.2.1 (bodyStateReq [45, 49, 48, 48]) (-100)
      (by decide) (by decide) (by rfl) (by decide)
  · exact contentLengthValidation.2.2.2.1
      (bodyStateReq [57, 57, 57, 57, 57, 57, 57, 57, 57, 57, 57, 57]) 999999999999
      (by decide) (by decide) (by rfl) (by decide) (by decide)
  · exact contentLengthValidation.2.2.2.2.1 (bodyStateReq [49, 48, 52, 56, 53, 55, 54, 48])
      (by decide) (by decide) (by rfl)
  · exact contentLengthValidation.2.2.2.2.2 (bodyStateReq [45, 49, 48, 48]) [1, 2, 3]
      (.invalidContentLength true) (by rfl) (by rfl)



/-! ### A well-formed header field-line parses to one map update -/

theorem tokenName_no_colon (name : Bytes)
    (htok : (lowerBytes (trimSpace name)).all isValidTokenChar = true) :
    ¬(58 : Nat) ∈ name := by
  intro hmem
  obtain ⟨pre, suf, hdec, hpre, hsuf⟩ := trimSpace_decomp name
  rw [hdec] at hmem
  simp only [List.mem_append] at hmem
  rcases hmem with (h | h) | h
  · have := hpre 58 h
    simp [isGoSpace] at this
  · have h58 : (58 : Nat) ∈ lowerBytes (trimSpace name) := by
      unfold lowerBytes
      refine List.mem_map.mpr ⟨58, h, ?_⟩
      unfold asciiLower
      rw [if_neg (by omega)]
    have := List.all_eq_true.mp htok 58 h58
    simp [isValidTokenChar] at this
  · have := hsuf 58 h
    simp [isGoSpace] at this

theorem validateFieldName_token (name : Bytes) (h1 : ¬name = [])
    (h2 : name.all isValidTokenChar = true) : validateFieldName name = none := by
  unfold validateFieldName
  rw [if_neg h1]
  have hnone : name.find? (fun b => !isValidTokenChar b) = none := by
    rw [List.find?_eq_none]
    intro x hx
    simp [List.all_eq_true.mp h2 x hx]
  rw [hnone]

/-- One well-formed field-line `name ++ ":" ++ value ++ CRLF` — trimmed
lowercased name non-empty and token-valid, no literal space before the colon,
no CRLF inside the line — parses to a single `Set`, consuming the line plus
its terminator. -/
theorem headerLine_parse (h : Headers) (name value : Bytes)
    (htok1 : ¬lowerBytes (trimSpace name) = [])
    (htok2 : (lowerBytes (trimSpace name)).all isValidTokenChar = true)
    (hnospace : ¬name.getLast? = some 32)
    (hnocrlf : findCRLF (name ++ 58 :: value) = none) :
    Headers.parse h ((name ++ 58 :: value) ++ [13, 10]) =
      (h.set (lowerBytes (trimSpace name)) (trimSpace value),
       (name ++ 58 :: value).length + 2, false, none) := by
  have hfind : findCRLF ((name ++ 58 :: value) ++ [13, 10])
      = some (name ++ 58 :: value).length := findCRLF_none_append _ [] hnocrlf
  have hlen0 : ¬(name ++ 58 :: value).length = 0 := by
    simp
  unfold Headers.parse
  rw [hfind]
  dsimp only
  rw [if_neg hlen0]
  rw [List.take_append_of_le_length le_rfl, List.take_length]
  unfold parseHeader
  rw [splitOnFirst_append 58 name value (tokenName_no_colon name htok2)]
  dsimp only
  rw [if_neg hnospace]
  rw [validateFieldName_token _ htok1 htok2]

/-- C5 counterexample: the line `"Host : x\r\n"` has a name that trims and
lowercases to the non-empty token sequence `"host"`, yet `Parse` consumes 0
bytes and raises `InvalidSpacing` instead of storing the header, because the
raw name ends in a space. -/
theorem headerFieldLine_cex :
    ¬lowerBytes (trimSpace [72, 111, 115, 116, 32]) = [] ∧
    (lowerBytes (trimSpace [72, 111, 115, 116, 32])).all isValidTokenChar = true ∧
    c5cexData = ([72, 111, 115, 116, 32] ++ 58 :: [32, 120]) ++ [13, 10] ∧
    Headers.parse NewHeaders c5cexData = (NewHeaders, 0, false, some .invalidSpacing) := by
  refine ⟨by decide, by decide, by decide, by decide⟩

/-- C5 amended: for a field-line `name ++ ":" ++ value ++ CRLF` whose trimmed
lowercased name is a non-empty token sequence, *and* whose raw name does not
end in a literal space, with the CRLF shown being the line's first CRLF and
the name not yet present in the collection, `Parse` consumes exactly
`len(line) + 2` bytes, reports `done = false` with no error, and afterwards
`Get` on the lowercased name returns the value with surrounding whitespace
trimmed. -/
theorem headerFieldLine (h : Headers) (name value : Bytes)
    (htok1 : ¬lowerBytes (trimSpace name) = [])
    (htok2 : (lowerBytes (trimSpace name)).all isValidTokenChar = true)
    (hnospace : ¬name.getLast? = some 32)
    (hnocrlf : findCRLF (name ++ 58 :: value) = none)
    (hfresh : lookupPairs h.pairs (lowerBytes (trimSpace name)) = none) :
    Headers.parse h ((name ++ 58 :: value) ++ [13, 10]) =
      (h.set (lowerBytes (trimSpace name)) (trimSpace value),
       (name ++ 58 :: value).length + 2, false, none) ∧
    (h.set (lowerBytes (trimSpace name)) (trimSpace value)).get
        (lowerBytes (trimSpace name)) = trimSpace value := by
  refine ⟨headerLine_parse h name value htok1 htok2 hnospace hnocrlf, ?_⟩
  unfold Headers.get Headers.set
  dsimp only
  rw [lowerBytes_idem]
  rw [lookupPairs_set_fresh h.pairs _ _ hfresh]
  rfl

/-- Witness for C5's amended theorem at `"Host: x\r\n"`. -/
theorem headerFieldLine_witness :
    Headers.parse NewHeaders (([72, 111, 115, 116] ++ 58 :: [32, 120]) ++ [13, 10]) =
      (NewHeaders.set [104, 111, 115, 116] [120], 9, false, none) ∧
    (NewHeaders.set [104, 111, 115, 116] [120]).get [104, 111, 115, 116] = [120] := by
  have h := headerFieldLine NewHeaders [72, 111, 115, 116] [32, 120]
    (by decide) (by decide) (by decide) (by decide) (by rfl)
  exact h

/-- C6: joining of repeated header names.  Via `Set`: setting the same
(case-insensitively equal) name twice joins the two values with `", "`,
never overwriting the first, and `Get` under any case variation of the name
returns the joined value.  Via `Parse`: feeding two well-formed field-lines
whose names lower to the same key produces the same comma-space join of the
two trimmed values. -/
theorem setTwiceJoins :
    (∀ (h : Headers) (k₁ k₂ kq v₁ v₂ : Bytes),
      lowerBytes k₂ = lowerBytes k₁ → lowerBytes kq = lowerBytes k₁ →
      lookupPairs h.pairs (lowerBytes k₁) = none →
      ((h.set k₁ v₁).set k₂ v₂).get kq = v₁ ++ 44 :: 32 :: v₂) ∧
    (∀ (h : Headers) (name₁ value₁ name₂ value₂ kq : Bytes),
      ¬lowerBytes (trimSpace name₁) = [] →
      (lowerBytes (trimSpace name₁)).all isValidTokenChar = true →
      ¬name₁.getLast? = some 32 → findCRLF (name₁ ++ 58 :: value₁) = none →
      ¬lowerBytes (trimSpace name₂) = [] →
      (lowerBytes (trimSpace name₂)).all isValidTokenChar = true →
      ¬name₂.getLast? = some 32 → findCRLF (name₂ ++ 58 :: value₂) = none →
      lowerBytes (trimSpace name₂) = lowerBytes (trimSpace name₁) →
      lowerBytes kq = lowerBytes (trimSpace name₁) →
      lookupPairs h.pairs (lowerBytes (trimSpace name₁)) = none →
      ((Headers.parse h ((name₁ ++ 58 :: value₁) ++ [13, 10])).1.parse
          ((name₂ ++ 58 :: value₂) ++ [13, 10])).1.get kq =
        trimSpace value₁ ++ 44 :: 32 :: trimSpace value₂) := by
  constructor
  · intro h k₁ k₂ kq v₁ v₂ h21 hq hfresh
    unfold Headers.get Headers.set
    dsimp only
    rw [hq, h21]
    rw [lookupPairs_set_existing _ _ _ _ (lookupPairs_set_fresh _ _ _ hfresh)]
    rfl
  · intro h name₁ value₁ name₂ value₂ kq ht1 ht2 hs1 hc1 ht3 ht4 hs2 hc2 hsame hq hfresh
    rw [headerLine_parse h name₁ value₁ ht1 ht2 hs1 hc1]
    dsimp only
    rw [headerLine_parse _ name₂ value₂ ht3 ht4 hs2 hc2]
    dsimp only
    unfold Headers.get Headers.set
    dsimp only
    rw [hq, hsame, lowerBytes_idem]
    rw [lookupPairs_set_existing _ _ _ _ (lookupPairs_set_fresh _ _ _ hfresh)]
    rfl

/-- Witness for C6: `Set-Cookie`/`SET-COOKIE` joined by `Set`, and two parsed
`Set-Cookie` field-lines joined by `Parse`. -/
theorem setTwiceJoins_witness :
    ((NewHeaders.set [83, 101, 116, 45, 67, 111, 111, 107, 105, 101] [97]).set
        [83, 69, 84, 45, 67, 79, 79, 75, 73, 69] [98]).get
      [115, 101, 116, 45, 99, 111, 111, 107, 105, 101] = [97, 44, 32, 98] ∧
    ((Headers.parse NewHeaders
        (([83, 101, 116, 45, 67, 111, 111, 107, 105, 101] ++ 58 :: [32, 97]) ++ [13, 10])).1.parse
        (([83, 69, 84, 45, 67, 79, 79, 75, 73, 69] ++ 58 :: [32, 98]) ++ [13, 10])).1.get
      [83, 101, 116, 45, 67, 111, 111, 107, 105, 101] = [97, 44, 32, 98] := by
  constructor
  · exact setTwiceJoins.1 NewHeaders [83, 101, 116, 45, 67, 111, 111, 107, 105, 101]
      [83, 69, 84, 45, 67, 79, 79, 75, 73, 69]
      [115, 101, 116, 45, 99, 111, 111, 107, 105, 101] [97] [98]
      (by decide) (by decide) (by rfl)
  · exact setTwiceJoins.2 NewHeaders [83, 101, 116, 45, 67, 111, 111, 107, 105, 101] [32, 97]
      [83, 69, 84, 45, 67, 79, 79, 75, 73, 69] [32, 98]
      [83, 101, 116, 45, 67, 111, 111, 107, 105, 101]
      (by decide) (by decide) (by decide) (by decide) (by decide) (by decide)
      (by decide) (by decide) (by decide) (by decide) (by rfl)

/-- C8 counterexample: in `"Host\t: x\r\n"` a tab — whitespace — immediately
precedes the colon, yet `Parse` succeeds, consuming the whole line and
storing the header, because the code only rejects a literal space (0x20). -/
theorem spaceBeforeColon_cex :
    isGoSpace 9 = true ∧
    splitOnFirst 58 (c8cexData.take 8) = some ([72, 111, 115, 116, 9], [32, 120]) ∧
    Headers.parse NewHeaders c8cexData =
      (⟨[([104, 111, 115, 116], [120])]⟩, 10, false, none) := by
  refine ⟨by decide, by decide, by decide⟩

/-- C8 amended: for every complete field-line (a colon present, terminated by
the buffer's first CRLF), if a literal space byte (0x20) immediately precedes
the colon then `Parse` returns the `InvalidSpacing` error with 0 bytes
consumed and the header map unchanged. -/
theorem spaceBeforeColon (h : Headers) (data : Bytes) (idx : Nat) (pre post : Bytes)
    (hfind : findCRLF data = some idx) (hpos : ¬idx = 0)
    (hsplit : splitOnFirst 58 (data.take idx) = some (pre, post))
    (hspace : pre.getLast? = some 32) :
    Headers.parse h data = (h, 0, false, some .invalidSpacing) := by
  unfold Headers.parse
  rw [hfind]
  dsimp only
  rw [if_neg hpos]
  unfold parseHeader
  rw [hsplit]
  dsimp only
  rw [if_pos hspace]

/-- Witness for C8's amended theorem at `"Host : x\r\n"`. -/
theorem spaceBeforeColon_witness :
    Headers.parse NewHeaders c5cexData = (NewHeaders, 0, false, some .invalidSpacing) :=
  spaceBeforeColon NewHeaders c5cexData 8 [72, 111, 115, 116, 32] [32, 120]
    (by rfl) (by decide) (by rfl) (by rfl)

/-! ### HTTP-version taxonomy -/

theorem validateMethod_no_space (m : Bytes) (h : validateMethod m = none) :
    ¬(32 : Nat) ∈ m := by
  intro hm
  unfold validateMethod at h
  by_cases h0 : m = []
  · rw [if_pos h0] at h
    simp at h
  · rw [if_neg h0] at h
    split at h
    · next hall =>
      have := List.all_eq_true.mp hall 32 hm
      simp at this
    · simp at h

/-- C7: the request-line HTTP-version error taxonomy.  A version field that
does not split on `/` into exactly two parts, or whose first part is not the
literal `HTTP`, yields `InvalidHttpFormat`; a well-formed `HTTP/<ver>` with
`<ver> ≠ "1.1"` yields the distinct error `UnsupportedHttpVersion`; and for a
complete request-line with exactly three space-separated fields and a valid
method, `parseRequestLine` surfaces exactly the version validator's error. -/
theorem httpVersionTaxonomy :
    (∀ v : Bytes, ¬(splitOn 47 v).length = 2 →
      validateHttpVersion v = some .invalidHttpFormat) ∧
    (∀ (v p0 p1 : Bytes), splitOn 47 v = [p0, p1] → ¬p0 = httpLit →
      validateHttpVersion v = some .invalidHttpFormat) ∧
    (∀ ver : Bytes, ¬(47 : Nat) ∈ ver → ¬ver = ver11Lit →
      validateHttpVersion (httpLit ++ 47 :: ver) = some .unsupportedHttpVer) ∧
    (ReqError.unsupportedHttpVer ≠ ReqError.invalidHttpFormat) ∧
    (∀ (method target version rest : Bytes) (e : ReqError),
      validateMethod method = none → ¬(32 : Nat) ∈ target → ¬(32 : Nat) ∈ version →
      findCRLF (method ++ 32 :: (target ++ 32 :: version)) = none →
      validateHttpVersion version = some e →
      parseRequestLine ((method ++ 32 :: (target ++ 32 :: version)) ++ 13 :: 10 :: rest) =
        (none, 0, some e)) := by
  refine ⟨?_, ?_, ?_, by decide, ?_⟩
  · intro v hlen
    unfold validateHttpVersion
    rcases hs : splitOn 47 v with _ | ⟨a, _ | ⟨b, _ | ⟨c, rest⟩⟩⟩
    · rfl
    · rfl
    · exfalso
      rw [hs] at hlen
      exact hlen rfl
    · rfl
  · intro v p0 p1 hs hne
    unfold validateHttpVersion
    rw [hs]
    dsimp only
    rw [if_pos hne]
  · intro ver hmem hne
    have hsplit : splitOn 47 (httpLit ++ 47 :: ver) = [httpLit, ver] := by
      rw [splitOn_append 47 httpLit ver (by decide), splitOn_not_mem 47 ver hmem]
    unfold validateHttpVersion
    rw [hsplit]
    dsimp only
    rw [if_neg (fun hh => hh rfl), if_pos hne]
  · intro method target version rest e hm ht hv hnc hver
    have hfind := findCRLF_none_append (method ++ 32 :: (target ++ 32 :: version)) rest hnc
    unfold parseRequestLine
    rw [hfind]
    dsimp only
    rw [List.take_append_of_le_length le_rfl, List.take_length]
    have hsplit : splitOn 32 (method ++ 32 :: (target ++ 32 :: version))
        = [method, target, version] := by
      rw [splitOn_append 32 method _ (validateMethod_no_space method hm)]
      rw [splitOn_append 32 target _ ht]
      rw [splitOn_not_mem 32 version hv]
    rw [hsplit]
    dsimp only
    rw [hm]
    dsimp only
    rw [hver]

/-- Witness for C7: `"HTTP1.1"` (no slash), `"HTTPS/1.1"` (wrong scheme word),
`"HTTP/2.0"` (unsupported version) and the request line
`"GET /coffee HTTP/2.0\r\n"`. -/
theorem httpVersionTaxonomy_witness :
    validateHttpVersion [72, 84, 84, 80, 49, 46, 49] = some .invalidHttpFormat ∧
    validateHttpVersion [72, 84, 84, 80, 83, 47, 49, 46, 49] = some .invalidHttpFormat ∧
    validateHttpVersion (httpLit ++ 47 :: [50, 46, 48]) = some .unsupportedHttpVer ∧
    parseRequestLine (([71, 69, 84] ++ 32 :: ([47, 99, 111, 102, 102, 101, 101] ++
        32 :: ([72, 84, 84] ++ [80, 47, 50, 46, 48]))) ++ 13 :: 10 :: []) =
      (none, 0, some .unsupportedHttpVer) := by
  refine ⟨?_, ?_, ?_, ?_⟩
  · exact httpVersionTaxonomy.1 [72, 84, 84, 80, 49, 46, 49] (by decide)
  · exact httpVersionTaxonomy.2.1 [72, 84, 84, 80, 83, 47, 49, 46, 49]
      [72, 84, 84, 80, 83] [49, 46, 49] (by decide) (by decide)
  · exact httpVersionTaxonomy.2.2.1 [50, 46, 48] (by decide) (by decide)
  · exact httpVersionTaxonomy.2.2.2.2 [71, 69, 84] [47, 99, 111, 102, 102, 101, 101]
      ([72, 84, 84] ++ [80, 47, 50, 46, 48]) [] .unsupportedHttpVer
      (by decide) (by decide) (by decide) (by decide) (by decide)



end HttpFromTcp
